import Mathlib

/-!
Verification of the tool-call lifecycle state machine and confirmation
protocol of the gemini-cli scheduler patches, together with the telemetry
configuration accessors and the `update_config.py` patch script itself.

The development shallowly embeds:
* the telemetry configuration accessors installed by `fix_config.py`,
  `update_config_constructor.py` and `update_metrics.py`;
* the strict confirmation-response handling installed by
  `remove_fallback.py` and `update_mock_message_bus.py`;
* the `awaiting_approval` transition of the scheduler state manager as
  rewritten by `update_state_manager.py` / `fix_lint.py`, inside a model of
  the full Call State Manager and Confirmation Channel (the manager itself
  is not part of the patch set, so the remaining operations are modelled
  from the specification);
* the guarded text transformation performed by `update_config.py`, for
  which idempotence on arbitrary input text is proved.
-/

namespace GeminiCli

/-! ## Telemetry configuration (fix_config.py / update_config_constructor.py /
update_metrics.py)

`config.ts` stores a `telemetrySettings` record built in the constructor from
the caller-supplied parameters, and exposes `getTelemetryEnabled` /
`getPerformanceMonitoringEnabled`; `metrics.ts` gates performance monitoring
on the latter. -/

/-- The `telemetry` section of `ConfigParameters`: both fields optional. -/
structure TelemetryParams where
  enabled : Option Bool
  performanceMonitoringEnabled : Option Bool
deriving DecidableEq

/-- The `telemetrySettings` record held by `Config`. -/
structure TelemetrySettings where
  enabled : Option Bool
  performanceMonitoringEnabled : Option Bool
deriving DecidableEq

/-- Constructor fragment of `Config` (update_config_constructor.py):
`enabled: params.telemetry?.enabled ?? false` followed by the inserted
`performanceMonitoringEnabled: params.telemetry?.performanceMonitoringEnabled`. -/
def mkTelemetrySettings (params : Option TelemetryParams) : TelemetrySettings :=
  { enabled := some ((params.bind (·.enabled)).getD false)
    performanceMonitoringEnabled := params.bind (·.performanceMonitoringEnabled) }

/-- `getTelemetryEnabled(): boolean { return this.telemetrySettings.enabled ?? false; }` -/
def getTelemetryEnabled (t : TelemetrySettings) : Bool :=
  t.enabled.getD false

/-- `getPerformanceMonitoringEnabled(): boolean { return
this.telemetrySettings.performanceMonitoringEnabled ?? this.getTelemetryEnabled(); }`
(the `good_block` installed by fix_config.py). -/
def getPerformanceMonitoringEnabled (t : TelemetrySettings) : Bool :=
  t.performanceMonitoringEnabled.getD (getTelemetryEnabled t)

/-- metrics.ts after update_metrics.py:
`isPerformanceMonitoringEnabled = config.getPerformanceMonitoringEnabled();` -/
def isPerformanceMonitoringEnabled (t : TelemetrySettings) : Bool :=
  getPerformanceMonitoringEnabled t

/-! ## Strict confirmation responses (remove_fallback.py)

`confirmation.ts` used to compute
`outcome: response.outcome ?? (response.confirmed ? ProceedOnce : Cancel)`;
after the patch it is `outcome: response.outcome!` - the outcome field is
passed through unchanged and the boolean `confirmed` flag never enters the
computation. -/

/-- Decision outcome of a confirmation (`ToolConfirmationOutcome`). -/
inductive Outcome
  | proceedOnce
  | proceedAlways
  | modifyAndProceed
  | cancel
deriving DecidableEq

/-- A confirmation response message as it crosses the bus: both the legacy
boolean field and the outcome enum may or may not be present on the wire. -/
structure ConfirmationResponse where
  correlationId : Nat
  confirmed : Option Bool
  outcome : Option Outcome
deriving DecidableEq

/-- confirmation.ts after remove_fallback.py: `outcome: response.outcome!,` -/
def resolveResponseOutcome (r : ConfirmationResponse) : Option Outcome :=
  r.outcome

/-- The removed legacy fallback, kept for comparison only:
`response.outcome ?? (response.confirmed ? ProceedOnce : Cancel)`. -/
def legacyResolveResponseOutcome (r : ConfirmationResponse) : Outcome :=
  r.outcome.getD (if r.confirmed.getD false then .proceedOnce else .cancel)

/-! ## Call State Manager and Confirmation Channel

The scheduler's `state-manager.ts` is only partially visible in the patch
set: the `awaiting_approval` transition (`toAwaitingApproval`) and the
`updateStatus` signature appear verbatim in `update_state_manager.py` /
`fix_lint.py` and are embedded from that source.  The remaining operations
(`enqueue`, `dequeue`, `finalizeCall`, `submitResponse`, the transition
table and the correlation registry) are modelled from the specification
(sections 3, 4 and 5 of the spec). -/

/-- Lifecycle status of a tool call. -/
inductive Status
  | validating
  | scheduled
  | awaitingApproval
  | executing
  | success
  | error
  | cancelled
deriving DecidableEq

/-- Terminal statuses admit no further transition. -/
def Status.isTerminal : Status → Bool
  | .success | .error | .cancelled => true
  | _ => false

/-- The tagged `confirmationDetails` variant describing what is being
confirmed (informational prompt, file-edit diff, shell command). -/
inductive ConfirmationDetails
  | info (title prompt : String)
  | edit (title fileName filePath fileDiff originalContent newContent : String)
  | exec (title command : String)
deriving DecidableEq

/-- Result payload shown for a finished call. -/
inductive ResultDisplay
  | text (s : String)
  | diff (fileName filePath fileDiff originalContent newContent : String)
deriving DecidableEq

/-- Modelled from the spec: an immutable `ToolCallRequest` - `callId`, tool
reference and invocation parameters, together with the data the validator
and confirmation policy consult during `dequeue` (whether validation fails
and whether the tool requires confirmation). -/
structure ToolCallRequest where
  callId : String
  toolName : String
  validationError : Option String
  needsConfirmation : Bool
  details : ConfirmationDetails
deriving DecidableEq

/-- The mutable lifecycle record, one per `callId` (spec section 3 and the
record literal returned by `toAwaitingApproval` in update_state_manager.py:
`request`, `status`, `correlationId`, `confirmationDetails`, `outcome`,
invocation data, plus the terminal `response`/`error` payload). -/
structure ToolCall where
  request : ToolCallRequest
  status : Status
  correlationId : Option Nat
  confirmationDetails : Option ConfirmationDetails
  outcome : Option Outcome
  resultDisplay : Option ResultDisplay
  errorMsg : Option String
deriving DecidableEq

/-- A `ConfirmationRequest` message published on the Confirmation Channel. -/
structure ConfirmationRequest where
  correlationId : Nat
  callId : String
  details : ConfirmationDetails
deriving DecidableEq

/-- Modelled from the spec: the combined state of the State Manager and the
Confirmation Channel - the active set, the completed batch, the correlation
allocator, the channel's pending-request registry, the published requests,
the resolved correlation ids and the log of decisions delivered to
`updateStatus`. -/
structure ManagerState where
  active : List ToolCall
  completed : List ToolCall
  nextCorrelationId : Nat
  pending : List (Nat × String)
  published : List ConfirmationRequest
  resolved : List Nat
  deliveries : List (String × Nat × Outcome)
deriving DecidableEq

/-- The empty scheduling session. -/
def initialState : ManagerState :=
  { active := [], completed := [], nextCorrelationId := 0, pending := []
    published := [], resolved := [], deliveries := [] }

/-- Error taxonomy of the manager (spec section 7). -/
inductive SchedulerError
  | duplicateCallId (id : String)
  | unknownCallId (id : String)
  | invalidTransition (id : String)
  | invalidTransitionData (msg : String)
  | staleResponse (cid : Nat)
  | duplicateResponse (cid : Nat)
deriving DecidableEq

/-- The transition payload handed to `updateStatus`; its required shape is a
function of the target status.  The `approval` payload mirrors the untyped
event-driven duck shape: either field may be missing on the wire. -/
structure ApprovalPayload where
  correlationId : Option Nat
  confirmationDetails : Option ConfirmationDetails
deriving DecidableEq

/-- `data` argument of `updateStatus`. -/
inductive TransitionData
  | approval (p : ApprovalPayload)
  | decision (correlationId : Nat) (outcome : Outcome)
  | errorInfo (msg : String)
  | result (display : ResultDisplay)
  | reason (msg : String)
deriving DecidableEq

/-- `isEventDrivenApprovalData` - the duck-type check used by
state-manager.ts to recognise the event-driven approval shape: the payload
must carry both a `correlationId` and `confirmationDetails`. -/
def isEventDrivenApprovalData (p : ApprovalPayload) : Bool :=
  p.correlationId.isSome && p.confirmationDetails.isSome

/-- The error text thrown by `toAwaitingApproval` (update_state_manager.py,
`new_logic`): "Invalid data for 'awaiting_approval' transition (callId: ...)". -/
def awaitingApprovalErrorMsg (callId : String) : String :=
  "Invalid data for \x27awaiting_approval\x27 transition (callId: " ++ callId ++ ")"

/-- `toAwaitingApproval` after update_state_manager.py and fix_lint.py:

    if (!this.isEventDrivenApprovalData(data)) \x7b
      throw new Error(
        `Invalid data for 'awaiting_approval' transition (callId: ...)`);
    \x7d
    const \x7b correlationId, confirmationDetails \x7d = data;
    return \x7b request, tool, status: 'awaiting_approval', correlationId,
             confirmationDetails, startTime, outcome, invocation \x7d; -/
def toAwaitingApproval (call : ToolCall) (p : ApprovalPayload) :
    Except String ToolCall :=
  if isEventDrivenApprovalData p = false then
    .error (awaitingApprovalErrorMsg call.request.callId)
  else
    .ok { call with
          status := .awaitingApproval
          correlationId := p.correlationId
          confirmationDetails := p.confirmationDetails }

/-- Modelled from the spec: the legal status changes of the transition table
(spec section 4.1), excluding the `dequeue`-driven rows handled separately. -/
def legalTransition : Status → Status → Bool
  | .validating, .scheduled => true
  | .validating, .awaitingApproval => true
  | .validating, .error => true
  | .awaitingApproval, .scheduled => true
  | .awaitingApproval, .cancelled => true
  | .scheduled, .executing => true
  | .executing, .success => true
  | .executing, .error => true
  | from_, .cancelled => !from_.isTerminal
  | _, _ => false

/-- Modelled from the spec: cancellation of a call - transitions it to
`Cancelled`, clears the status-dependent payload and, for an edit-tool call
awaiting approval, preserves the diff fields in the result display
(behaviour fixed by the `should preserve diff when cancelling an edit tool
call` test updated by update_test_2.py). -/
def toCancelled (call : ToolCall) (reasonMsg : String) : ToolCall :=
  { call with
    status := .cancelled
    correlationId := none
    confirmationDetails := none
    resultDisplay :=
      match call.confirmationDetails with
      | some (.edit _ fn fp fd oc nc) => some (.diff fn fp fd oc nc)
      | _ => some (.text reasonMsg) }

/-- Modelled from the spec: applying a decision outcome to a waiting call -
`Scheduled` for a proceed outcome, `Cancelled` for `Cancel`; the
`correlationId` is cleared on the way out of `AwaitingApproval`. -/
def applyDecision (call : ToolCall) (o : Outcome) : ToolCall :=
  if o = .cancel then
    { toCancelled call "User denied the request." with outcome := some o }
  else
    { call with
      status := .scheduled
      correlationId := none
      confirmationDetails := none
      outcome := some o }

/-- Replace the (unique) active record with the given `callId`. -/
def replaceCall (l : List ToolCall) (id : String) (c' : ToolCall) : List ToolCall :=
  l.map fun c => if c.request.callId = id then c' else c

/-- Modelled from the spec: `updateStatus(callId, targetStatus, data)` - the
single mutation entry point for all transitions other than the
`dequeue`-driven ones.  An unknown `callId` fails with `UnknownCallIdError`;
an illegal status change fails with `InvalidTransitionError`; a payload
shape mismatch fails with `InvalidTransitionDataError`.  The
`awaiting_approval` branch is the embedded `toAwaitingApproval` from
update_state_manager.py.  Transitions out of `AwaitingApproval` invalidate
the call's correlation id in the channel registry (`cancelRequest` /
response resolution, spec sections 4.2 and 5). -/
def updateStatus (s : ManagerState) (id : String) (target : Status)
    (data : TransitionData) : Except SchedulerError ManagerState :=
  match s.active.find? (fun c => c.request.callId = id) with
  | none => .error (.unknownCallId id)
  | some call =>
    if legalTransition call.status target = false then
      .error (.invalidTransition id)
    else
      match target, data with
      | .awaitingApproval, .approval p =>
        match toAwaitingApproval call p with
        | .error m => .error (.invalidTransitionData m)
        | .ok c' => .ok { s with active := replaceCall s.active id c' }
      | .awaitingApproval, _ =>
        .error (.invalidTransitionData (awaitingApprovalErrorMsg id))
      | .scheduled, .decision cid o =>
        if call.status = .awaitingApproval then
          if call.correlationId ≠ some cid then .error (.staleResponse cid)
          else if o = .cancel then
            .error (.invalidTransitionData id)
          else
            .ok { s with
                  active := replaceCall s.active id (applyDecision call o)
                  pending := s.pending.filter (fun pr => pr.1 ≠ cid)
                  resolved := cid :: s.resolved }
        else .error (.invalidTransitionData id)
      | .scheduled, _ =>
        if call.status = .validating then
          .ok { s with active := replaceCall s.active id { call with status := .scheduled } }
        else .error (.invalidTransitionData id)
      | .cancelled, .decision cid o =>
        if call.status = .awaitingApproval then
          if call.correlationId ≠ some cid then .error (.staleResponse cid)
          else if o ≠ .cancel then .error (.invalidTransitionData id)
          else
            .ok { s with
                  active := replaceCall s.active id (applyDecision call o)
                  pending := s.pending.filter (fun pr => pr.1 ≠ cid)
                  resolved := cid :: s.resolved }
        else .error (.invalidTransitionData id)
      | .cancelled, .reason msg =>
        .ok { s with
              active := replaceCall s.active id (toCancelled call msg)
              pending := s.pending.filter (fun pr => some pr.1 ≠ call.correlationId) }
      | .cancelled, _ => .error (.invalidTransitionData id)
      | .error, .errorInfo msg =>
        .ok { s with active :=
                replaceCall s.active id { call with status := .error, errorMsg := some msg } }
      | .error, _ => .error (.invalidTransitionData id)
      | .executing, _ =>
        .ok { s with active := replaceCall s.active id { call with status := .executing } }
      | .success, .result d =>
        .ok { s with active :=
                replaceCall s.active id { call with status := .success, resultDisplay := some d } }
      | .success, _ => .error (.invalidTransitionData id)
      | .validating, _ => .error (.invalidTransition id)

/-- Modelled from the spec: `enqueue(requests)` creates one `Validating`
call per request, preserving order; any `callId` collision with an active
or completed call, or inside the batch, fails with `DuplicateCallIdError`. -/
def enqueue (s : ManagerState) (reqs : List ToolCallRequest) :
    Except SchedulerError ManagerState :=
  if (reqs.map (·.callId)).Nodup ∧
      ∀ r ∈ reqs, (∀ c ∈ s.active, c.request.callId ≠ r.callId) ∧
        (∀ c ∈ s.completed, c.request.callId ≠ r.callId) then
    .ok { s with active := s.active ++ reqs.map fun r =>
          { request := r, status := .validating, correlationId := none
            confirmationDetails := none, outcome := none
            resultDisplay := none, errorMsg := none } }
  else
    .error (.duplicateCallId "")

/-- Modelled from the spec: how `dequeue` advances a single `Validating`
call - terminal `Error` on validation failure, `AwaitingApproval` with a
freshly allocated correlation id, a registered pending request and stored
`confirmationDetails` when confirmation is required, `Scheduled` otherwise.
Returns the advanced call, the next allocator value, and the new registry
and published-request entries. -/
def dequeueOne (c : ToolCall) (n : Nat) :
    ToolCall × Nat × List (Nat × String) × List ConfirmationRequest :=
  if c.status ≠ .validating then (c, n, [], [])
  else
    match c.request.validationError with
    | some e => ({ c with status := .error, errorMsg := some e }, n, [], [])
    | none =>
      if c.request.needsConfirmation then
        ({ c with
           status := .awaitingApproval
           correlationId := some n
           confirmationDetails := some c.request.details }, n + 1,
         [(n, c.request.callId)],
         [{ correlationId := n, callId := c.request.callId, details := c.request.details }])
      else ({ c with status := .scheduled }, n, [], [])

/-- Advance every eligible call of the active list, threading the
correlation-id allocator. -/
def dequeueList (l : List ToolCall) (n : Nat) :
    List ToolCall × Nat × List (Nat × String) × List ConfirmationRequest :=
  match l with
  | [] => ([], n, [], [])
  | c :: cs =>
    ((dequeueOne c n).1 :: (dequeueList cs (dequeueOne c n).2.1).1,
     (dequeueList cs (dequeueOne c n).2.1).2.1,
     (dequeueOne c n).2.2.1 ++ (dequeueList cs (dequeueOne c n).2.1).2.2.1,
     (dequeueOne c n).2.2.2 ++ (dequeueList cs (dequeueOne c n).2.1).2.2.2)

/-- Modelled from the spec: `dequeue()` advances all eligible `Validating`
calls, allocating correlation ids and publishing confirmation requests. -/
def dequeue (s : ManagerState) : ManagerState :=
  let (l, n, ps, rs) := dequeueList s.active s.nextCorrelationId
  { s with
    active := l
    nextCorrelationId := n
    pending := s.pending ++ ps
    published := s.published ++ rs }

/-- Modelled from the spec: `finalizeCall(callId)` moves a terminal call
from the active set into the completed batch; an already finalized call is
an idempotent no-op; a `callId` that never existed fails with
`UnknownCallIdError`. -/
def finalizeCall (s : ManagerState) (id : String) :
    Except SchedulerError ManagerState :=
  match s.active.find? (fun c => c.request.callId = id) with
  | some c =>
    if c.status.isTerminal then
      .ok { s with
            active := s.active.filter (fun c' => c'.request.callId ≠ id)
            completed := s.completed ++ [c] }
    else .error (.invalidTransition id)
  | none =>
    if s.completed.any (fun c => c.request.callId = id) then .ok s
    else .error (.unknownCallId id)

/-- The strict decision response accepted at the channel boundary after the
legacy boolean shape was removed: the outcome enum is mandatory. -/
structure DecisionResponse where
  correlationId : Nat
  outcome : Outcome
deriving DecidableEq

/-- Modelled from the spec: `submitResponse(ConfirmationResponse)` - the
Channel looks up the pending request by `correlationId` and delivers the
decision exactly once to the State Manager's `updateStatus`; an id that is
no longer pending fails with `DuplicateResponseError` when it was already
resolved and with `StaleResponseError` otherwise (e.g. after
`cancelRequest`). -/
def submitResponse (s : ManagerState) (r : DecisionResponse) :
    Except SchedulerError ManagerState :=
  match s.pending.find? (fun pr => pr.1 = r.correlationId) with
  | none =>
    if r.correlationId ∈ s.resolved then .error (.duplicateResponse r.correlationId)
    else .error (.staleResponse r.correlationId)
  | some (cid, callId) =>
    let target : Status := if r.outcome = .cancel then .cancelled else .scheduled
    updateStatus
      { s with deliveries := s.deliveries ++ [(callId, cid, r.outcome)] }
      callId target (.decision cid r.outcome)

/-! ## Concrete fixtures -/

/-- The edit confirmation details used in the `should preserve diff when
cancelling an edit tool call` test (update_test_2.py). -/
def editDetails : ConfirmationDetails :=
  .edit "Edit" "test.txt" "/path/to/test.txt" "diff" "old" "new"

/-- A request for an edit tool that requires confirmation. -/
def editRequest : ToolCallRequest :=
  { callId := "edit-1", toolName := "edit", validationError := none
    needsConfirmation := true, details := editDetails }

/-- A second request, used to reach states with several calls. -/
def infoRequest : ToolCallRequest :=
  { callId := "info-1", toolName := "info", validationError := none
    needsConfirmation := true, details := .info "Confirm" "Proceed?" }

/-- Scenario B of the spec: enqueue an edit call, move it to
`AwaitingApproval` with the edit details, cancel it, finalize it. -/
def scenarioB : Except SchedulerError ManagerState := do
  let s1 ← enqueue initialState [editRequest]
  let s2 ← updateStatus s1 "edit-1" .awaitingApproval
    (.approval { correlationId := some 123, confirmationDetails := some editDetails })
  let s3 ← updateStatus s2 "edit-1" .cancelled (.reason "User said no")
  finalizeCall s3 "edit-1"

/-! ## C9: performance monitoring gating -/

/-- C9: `getPerformanceMonitoringEnabled` returns the configured
`telemetry.performanceMonitoringEnabled` value when set and falls back to
`getTelemetryEnabled()` otherwise; `getTelemetryEnabled` defaults to `false`
when `telemetry.enabled` is unset; and performance monitoring
initialization gates on `getPerformanceMonitoringEnabled`, which can differ
from `getTelemetryEnabled`. -/
theorem performanceMonitoring_gating :
    (∀ (p : Option TelemetryParams) (v : Bool),
        p.bind (·.performanceMonitoringEnabled) = some v →
        getPerformanceMonitoringEnabled (mkTelemetrySettings p) = v)
    ∧ (∀ p : Option TelemetryParams,
        p.bind (·.performanceMonitoringEnabled) = none →
        getPerformanceMonitoringEnabled (mkTelemetrySettings p)
          = getTelemetryEnabled (mkTelemetrySettings p))
    ∧ (∀ p : Option TelemetryParams,
        p.bind (·.enabled) = none →
        getTelemetryEnabled (mkTelemetrySettings p) = false)
    ∧ (∀ t, isPerformanceMonitoringEnabled t = getPerformanceMonitoringEnabled t)
    ∧ (∃ t, isPerformanceMonitoringEnabled t ≠ getTelemetryEnabled t) := by
  refine ⟨?_, ?_, ?_, fun _ => rfl, ?_⟩
  · intro p v h
    simp [getPerformanceMonitoringEnabled, mkTelemetrySettings, h]
  · intro p h
    simp [getPerformanceMonitoringEnabled, getTelemetryEnabled, mkTelemetrySettings, h]
  · intro p h
    simp [getTelemetryEnabled, mkTelemetrySettings, h]
  · exact ⟨{ enabled := some true, performanceMonitoringEnabled := some false }, by decide⟩

/-- Witness for the hypotheses of `performanceMonitoring_gating`: a config
with performance monitoring explicitly on and telemetry off, and a config
with everything unset. -/
theorem performanceMonitoring_gating_witness :
    getPerformanceMonitoringEnabled
        (mkTelemetrySettings (some { enabled := some false
                                     performanceMonitoringEnabled := some true })) = true
    ∧ getTelemetryEnabled (mkTelemetrySettings none) = false :=
  ⟨performanceMonitoring_gating.1
      (some { enabled := some false, performanceMonitoringEnabled := some true }) true rfl,
   performanceMonitoring_gating.2.2.1 none rfl⟩

/-! ## C2: the legacy boolean response shape is gone -/

/-- C2: after remove_fallback.py the outcome applied for a confirmation
response is exactly the response's `outcome` field, never a function of the
legacy boolean `confirmed` flag, and the `true ↦ ProceedOnce` /
`false ↦ Cancel` translation is never applied: a response carrying only the
boolean has no outcome at all.  At the state-machine level, applying a
decision records exactly the decision's outcome enum on the call. -/
theorem responseOutcome_not_derived_from_confirmed :
    (∀ r : ConfirmationResponse, resolveResponseOutcome r = r.outcome)
    ∧ (∀ (r : ConfirmationResponse) (b : Option Bool),
        resolveResponseOutcome { r with confirmed := b } = resolveResponseOutcome r)
    ∧ (∀ r : ConfirmationResponse, r.outcome = none →
        resolveResponseOutcome r ≠ some .proceedOnce
        ∧ resolveResponseOutcome r ≠ some .cancel)
    ∧ (∀ (call : ToolCall) (o : Outcome), (applyDecision call o).outcome = some o) := by
  refine ⟨fun _ => rfl, fun _ _ => rfl, ?_, ?_⟩
  · intro r h
    simp [resolveResponseOutcome, h]
  · intro call o
    by_cases h : o = .cancel <;> simp [applyDecision, h]

/-- Witness for `responseOutcome_not_derived_from_confirmed`: the
legacy-shaped response `(confirmed := true, outcome absent)` resolves to no
outcome rather than to `ProceedOnce`. -/
theorem responseOutcome_not_derived_from_confirmed_witness :
    resolveResponseOutcome { correlationId := 7, confirmed := some true, outcome := none }
      ≠ some Outcome.proceedOnce :=
  (responseOutcome_not_derived_from_confirmed.2.2.1
    { correlationId := 7, confirmed := some true, outcome := none } rfl).1

/-! ## C1: the awaiting-approval shape check -/

/-- A validating call on "edit-1", as left by `enqueue`. -/
def sampleValidatingCall : ToolCall :=
  { request := editRequest, status := .validating, correlationId := none
    confirmationDetails := none, outcome := none, resultDisplay := none
    errorMsg := none }

/-- A one-call manager state with "edit-1" validating. -/
def sampleState : ManagerState :=
  { initialState with active := [sampleValidatingCall] }

/-- C1 counterexample: the error thrown for a malformed `awaiting_approval`
payload names the `callId` but does not name the expected payload shape -
the message mentions neither the `correlationId` nor the
`confirmationDetails` field of the required `\x7bcorrelationId,
confirmationDetails\x7d` shape. -/
theorem awaitingApproval_error_does_not_name_shape :
    updateStatus sampleState "edit-1" .awaitingApproval
        (.approval { correlationId := none, confirmationDetails := some editDetails })
      = .error (.invalidTransitionData (awaitingApprovalErrorMsg "edit-1"))
    ∧ ¬ ("correlationId".toList <:+: (awaitingApprovalErrorMsg "edit-1").toList)
    ∧ ¬ ("confirmationDetails".toList <:+: (awaitingApprovalErrorMsg "edit-1").toList) := by
  refine ⟨rfl, by decide, by decide⟩

/-- C1 (amended): a transition to `awaiting_approval` whose payload lacks
`correlationId` or `confirmationDetails` always fails with the
invalid-transition-data error, the error message names the `callId` and the
target status, and the operation never produces a mutated state. -/
theorem awaitingApproval_shape_mismatch_fails (s : ManagerState) (id : String)
    (call : ToolCall) (p : ApprovalPayload)
    (hfind : s.active.find? (fun c => c.request.callId = id) = some call)
    (hlegal : legalTransition call.status .awaitingApproval = true)
    (hshape : isEventDrivenApprovalData p = false) :
    updateStatus s id .awaitingApproval (.approval p)
      = .error (.invalidTransitionData (awaitingApprovalErrorMsg call.request.callId))
    ∧ call.request.callId.toList <:+: (awaitingApprovalErrorMsg call.request.callId).toList
    ∧ "awaiting_approval".toList <:+: (awaitingApprovalErrorMsg call.request.callId).toList
    ∧ ∀ s', updateStatus s id .awaitingApproval (.approval p) ≠ .ok s' := by
  have hupd : updateStatus s id .awaitingApproval (.approval p)
      = .error (.invalidTransitionData (awaitingApprovalErrorMsg call.request.callId)) := by
    simp only [updateStatus, hfind, hlegal, toAwaitingApproval, hshape]
    simp
  refine ⟨hupd, ?_, ?_, fun s' h => by rw [hupd] at h; exact Except.noConfusion h⟩
  · refine ⟨"Invalid data for \x27awaiting_approval\x27 transition (callId: ".toList,
      ")".toList, ?_⟩
    simp [awaitingApprovalErrorMsg]
  · refine ⟨"Invalid data for \x27".toList,
      ("\x27 transition (callId: " ++ call.request.callId ++ ")").toList, ?_⟩
    simp [awaitingApprovalErrorMsg]

/-- Witness for `awaitingApproval_shape_mismatch_fails` at a concrete state
and payload. -/
theorem awaitingApproval_shape_mismatch_fails_witness :
    updateStatus sampleState "edit-1" .awaitingApproval
        (.approval { correlationId := some 123, confirmationDetails := none })
      = .error (.invalidTransitionData (awaitingApprovalErrorMsg "edit-1"))
    ∧ "edit-1".toList <:+: (awaitingApprovalErrorMsg "edit-1").toList
    ∧ "awaiting_approval".toList <:+: (awaitingApprovalErrorMsg "edit-1").toList
    ∧ ∀ s', updateStatus sampleState "edit-1" .awaitingApproval
        (.approval { correlationId := some 123, confirmationDetails := none }) ≠ .ok s' :=
  awaitingApproval_shape_mismatch_fails sampleState "edit-1" sampleValidatingCall
    { correlationId := some 123, confirmationDetails := none } rfl rfl rfl

/-! ## C7: finalizeCall is idempotent -/

/-- C7: finalizing the same `callId` twice yields exactly the state of
finalizing it once, and a `callId` that never existed (neither active nor
completed) fails with `UnknownCallIdError`. -/
theorem finalizeCall_idempotent :
    (∀ (s : ManagerState) (id : String) (s' : ManagerState),
        finalizeCall s id = .ok s' → finalizeCall s' id = .ok s')
    ∧ (∀ (s : ManagerState) (id : String),
        (∀ c ∈ s.active, c.request.callId ≠ id) →
        (∀ c ∈ s.completed, c.request.callId ≠ id) →
        finalizeCall s id = .error (.unknownCallId id)) := by
  constructor
  · intro s id s' h
    unfold finalizeCall at h ⊢
    cases hfind : s.active.find? (fun c => c.request.callId = id) with
    | none =>
      rw [hfind] at h
      by_cases hany : s.completed.any (fun c => c.request.callId = id)
      · simp only [hany, if_pos] at h
        cases h
        rw [hfind]
        simp [hany]
      · simp [hany] at h
    | some c =>
      rw [hfind] at h
      by_cases hterm : c.status.isTerminal
      · simp only [hterm, if_pos] at h
        cases h
        have hnone : (s.active.filter (fun c' => c'.request.callId ≠ id)).find?
            (fun c => c.request.callId = id) = none := by
          apply List.find?_eq_none.mpr
          intro x hx
          have hx' := List.of_mem_filter hx
          simp only [decide_eq_true_eq] at hx' ⊢
          exact fun hc => hx' hc
        simp only [hnone]
        have hc : c.request.callId = id := by
          have := List.find?_some hfind
          simpa using this
        have hany : (s.completed ++ [c]).any (fun c => c.request.callId = id) = true := by
          simp [List.any_append, hc]
        simp [hany]
      · simp [hterm] at h
  · intro s id hact hcomp
    unfold finalizeCall
    have hfind : s.active.find? (fun c => c.request.callId = id) = none := by
      apply List.find?_eq_none.mpr
      intro x hx
      simpa using hact x hx
    rw [hfind]
    have hany : s.completed.any (fun c => c.request.callId = id) = false := by
      simp only [List.any_eq_false]
      intro x hx
      simpa using hcomp x hx
    simp [hany]

/-- Witness for `finalizeCall_idempotent`: finalizing the cancelled call of
scenario B twice, and finalizing a `callId` that never existed. -/
theorem finalizeCall_idempotent_witness :
    (∀ s', (do
        let s1 ← enqueue initialState [editRequest]
        let s2 ← updateStatus s1 "edit-1" .awaitingApproval
          (.approval { correlationId := some 123, confirmationDetails := some editDetails })
        let s3 ← updateStatus s2 "edit-1" .cancelled (.reason "User said no")
        finalizeCall s3 "edit-1" : Except SchedulerError ManagerState) = .ok s' →
        finalizeCall s' "edit-1" = .ok s')
    ∧ finalizeCall initialState "ghost" = .error (.unknownCallId "ghost") := by
  constructor
  · intro s' h
    cases henq : enqueue initialState [editRequest] with
    | error e => rw [henq] at h; simp [Bind.bind, Except.bind] at h
    | ok s1 =>
      rw [henq] at h
      cases hupd : updateStatus s1 "edit-1" .awaitingApproval
          (.approval { correlationId := some 123, confirmationDetails := some editDetails }) with
      | error e => simp [hupd, Bind.bind, Except.bind] at h
      | ok s2 =>
        cases hcan : updateStatus s2 "edit-1" .cancelled (.reason "User said no") with
        | error e => simp [hupd, hcan, Bind.bind, Except.bind] at h
        | ok s3 =>
          have hfin : finalizeCall s3 "edit-1" = .ok s' := by
            simpa [hupd, hcan, Bind.bind, Except.bind] using h
          exact finalizeCall_idempotent.1 s3 "edit-1" s' hfin
  · exact finalizeCall_idempotent.2 initialState "ghost"
      (by intro c hc; simp [initialState] at hc)
      (by intro c hc; simp [initialState] at hc)

/-! ## C8: scenario B preserves the edit diff -/

/-- C8: enqueuing the edit call, transitioning it to `AwaitingApproval`
with the edit `confirmationDetails`, cancelling it and finalizing produces
a completed record with status `Cancelled` whose result display preserves
all five diff fields unchanged. -/
theorem scenarioB_preserves_diff :
    scenarioB.map (fun s => s.completed.map fun c => (c.status, c.resultDisplay))
      = .ok [(Status.cancelled,
              some (.diff "test.txt" "/path/to/test.txt" "diff" "old" "new"))] := by
  rfl

/-! ## Reachability and the manager invariants -/

/-- One State Manager / Confirmation Channel operation (spec section 4). -/
inductive Step : ManagerState → ManagerState → Prop
  | enqueueStep (s : ManagerState) (reqs : List ToolCallRequest) (s' : ManagerState) :
      enqueue s reqs = .ok s' → Step s s'
  | dequeueStep (s : ManagerState) : Step s (dequeue s)
  | updateStep (s : ManagerState) (id : String) (target : Status)
      (data : TransitionData) (s' : ManagerState) :
      updateStatus s id target data = .ok s' → Step s s'
  | finalizeStep (s : ManagerState) (id : String) (s' : ManagerState) :
      finalizeCall s id = .ok s' → Step s s'
  | submitStep (s : ManagerState) (r : DecisionResponse) (s' : ManagerState) :
      submitResponse s r = .ok s' → Step s s'

/-- States reachable from the empty session through manager operations. -/
def Reachable (s : ManagerState) : Prop :=
  Relation.ReflTransGen Step initialState s

/-- The structural invariant of the manager: a call carries a correlation
id exactly while awaiting approval, completed calls are terminal and
carry none, call ids are unique, the channel registry only holds ids below
the allocator and each pending entry is linked to a waiting active call. -/
def Inv (s : ManagerState) : Prop :=
  (∀ c ∈ s.active, c.correlationId.isSome = true ↔ c.status = .awaitingApproval)
  ∧ (∀ c ∈ s.completed, c.status.isTerminal = true ∧ c.correlationId = none)
  ∧ (s.active.map (·.request.callId)).Nodup
  ∧ (∀ c ∈ s.active, ∀ c' ∈ s.completed, c.request.callId ≠ c'.request.callId)
  ∧ (∀ pr ∈ s.pending, pr.1 < s.nextCorrelationId)
  ∧ (∀ pr ∈ s.pending, ∃ c ∈ s.active,
      c.request.callId = pr.2 ∧ c.status = .awaitingApproval ∧ c.correlationId = some pr.1)

theorem inv_initial : Inv initialState := by
  refine ⟨?_, ?_, ?_, ?_, ?_, ?_⟩ <;> simp [initialState]

/-- Elements of `replaceCall` are the replacement or untouched originals. -/
theorem mem_replaceCall {l : List ToolCall} {id : String} {n : ToolCall} {x : ToolCall}
    (h : x ∈ replaceCall l id n) : x = n ∨ (x ∈ l ∧ x.request.callId ≠ id) := by
  unfold replaceCall at h
  rcases List.mem_map.mp h with ⟨c, hc, hcx⟩
  by_cases hid : c.request.callId = id
  · left; rw [if_pos hid] at hcx; exact hcx.symm
  · right; rw [if_neg hid] at hcx; exact hcx ▸ ⟨hc, hid⟩

/-- Untouched calls survive `replaceCall`. -/
theorem mem_replaceCall_of_ne {l : List ToolCall} {id : String} {n : ToolCall} {x : ToolCall}
    (hx : x ∈ l) (hne : x.request.callId ≠ id) : x ∈ replaceCall l id n := by
  unfold replaceCall
  refine List.mem_map.mpr ⟨x, hx, ?_⟩
  rw [if_neg hne]

/-- `replaceCall` with a replacement for the same `callId` does not change
the call-id listing. -/
theorem map_callId_replaceCall (l : List ToolCall) (id : String) (n : ToolCall)
    (hn : n.request.callId = id) :
    (replaceCall l id n).map (·.request.callId) = l.map (·.request.callId) := by
  induction l with
  | nil => rfl
  | cons c cs ih =>
    unfold replaceCall at ih ⊢
    by_cases hc : c.request.callId = id
    · simp only [List.map_cons, if_pos hc, List.map_map] at ih ⊢
      rw [hn, hc]
      exact congrArg _ ih
    · simp only [List.map_cons, if_neg hc, List.map_map] at ih ⊢
      exact congrArg _ ih

/-- Splitting a list at the unique element found by `find?` on its call id;
`replaceCall` rewrites exactly that position. -/
theorem replaceCall_decomp {l : List ToolCall} {id : String} {call : ToolCall}
    (hnd : (l.map (·.request.callId)).Nodup)
    (hfind : l.find? (fun c => c.request.callId = id) = some call) (n : ToolCall) :
    ∃ l₁ l₂, l = l₁ ++ call :: l₂
      ∧ (∀ x ∈ l₁, x.request.callId ≠ id)
      ∧ (∀ x ∈ l₂, x.request.callId ≠ id)
      ∧ replaceCall l id n = l₁ ++ n :: l₂ := by
  induction l with
  | nil => simp at hfind
  | cons c cs ih =>
    rw [List.find?_cons] at hfind
    by_cases hc : c.request.callId = id
    · simp only [hc] at hfind
      rw [show (decide True) = true by simp] at hfind
      cases hfind
      refine ⟨[], cs, rfl, by simp, ?_, ?_⟩
      · intro x hx hxid
        have : id ∈ cs.map (·.request.callId) := List.mem_map.mpr ⟨x, hx, hxid⟩
        simp only [List.map_cons, List.nodup_cons] at hnd
        exact hnd.1 (hc ▸ this)
      · unfold replaceCall
        simp only [List.map_cons, if_pos hc]
        congr 1
        have : ∀ x ∈ cs, (if x.request.callId = id then n else x) = x := by
          intro x hx
          rw [if_neg]
          intro hxid
          simp only [List.map_cons, List.nodup_cons] at hnd
          exact hnd.1 (hc ▸ List.mem_map.mpr ⟨x, hx, hxid⟩)
        exact List.map_congr_left this |>.trans (List.map_id _)
    · rw [show (decide (c.request.callId = id)) = false by simp [hc]] at hfind
      simp only [List.map_cons, List.nodup_cons] at hnd
      obtain ⟨l₁, l₂, hl, h₁, h₂, hr⟩ := ih hnd.2 hfind
      refine ⟨c :: l₁, l₂, by rw [hl]; rfl, ?_, h₂, ?_⟩
      · intro x hx
        rcases List.mem_cons.mp hx with rfl | hx'
        · exact hc
        · exact h₁ x hx'
      · unfold replaceCall at hr ⊢
        simp only [List.map_cons, if_neg hc]
        rw [hr]
        rfl

/-- `find?` by call id finds the member itself when call ids are unique. -/
theorem find?_eq_of_nodup_mem {l : List ToolCall} {c : ToolCall}
    (hnd : (l.map (·.request.callId)).Nodup) (hc : c ∈ l) :
    l.find? (fun x => x.request.callId = c.request.callId) = some c := by
  induction l with
  | nil => simp at hc
  | cons d ds ih =>
    simp only [List.map_cons, List.nodup_cons] at hnd
    rcases List.mem_cons.mp hc with rfl | hc'
    · simp [List.find?_cons]
    · rw [List.find?_cons]
      have hne : d.request.callId ≠ c.request.callId := by
        intro he
        exact hnd.1 (he ▸ List.mem_map.mpr ⟨c, hc', rfl⟩)
      rw [show (decide (d.request.callId = c.request.callId)) = false by simp [hne]]
      exact ih hnd.2 hc'

/-- `enqueue` preserves the manager invariant. -/
theorem inv_enqueue {s : ManagerState} {reqs : List ToolCallRequest} {s' : ManagerState}
    (hInv : Inv s) (h : enqueue s reqs = .ok s') : Inv s' := by
  obtain ⟨h1, h2, h3, h4, h5, h6⟩ := hInv
  unfold enqueue at h
  split at h
  case isFalse => exact absurd h (by simp)
  case isTrue hcond =>
    cases h
    obtain ⟨hnd, hfresh⟩ := hcond
    refine ⟨?_, h2, ?_, ?_, h5, ?_⟩
    · intro c hc
      rcases List.mem_append.mp hc with hc' | hc'
      · exact h1 c hc'
      · rcases List.mem_map.mp hc' with ⟨r, _, rfl⟩
        simp [Status.isTerminal]
    · simp only [List.map_append, List.map_map]
      rw [List.nodup_append]
      refine ⟨h3, hnd, ?_⟩
      · intro a ha hb
        rcases List.mem_map.mp ha with ⟨c, hc, rfl⟩
        rcases List.mem_map.mp hb with ⟨r, hr, har⟩
        exact (hfresh r hr).1 c hc (by simpa using har.symm)
    · intro c hc c' hc'
      rcases List.mem_append.mp hc with hca | hca
      · exact h4 c hca c' hc'
      · rcases List.mem_map.mp hca with ⟨r, hr, rfl⟩
        intro he
        exact (hfresh r hr).2 c' hc' he.symm
    · intro pr hpr
      obtain ⟨c, hc, hlink⟩ := h6 pr hpr
      exact ⟨c, List.mem_append.mpr (Or.inl hc), hlink⟩

theorem legal_awaiting_source {st : Status}
    (h : legalTransition st .awaitingApproval = true) : st = .validating := by
  cases st <;> simp [legalTransition] at h ⊢

theorem legal_error_source {st : Status}
    (h : legalTransition st .error = true) : st = .validating ∨ st = .executing := by
  cases st <;> simp [legalTransition] at h ⊢

theorem legal_executing_source {st : Status}
    (h : legalTransition st .executing = true) : st = .scheduled := by
  cases st <;> simp [legalTransition] at h ⊢

theorem legal_success_source {st : Status}
    (h : legalTransition st .success = true) : st = .executing := by
  cases st <;> simp [legalTransition] at h ⊢

theorem applyDecision_request (c : ToolCall) (o : Outcome) :
    (applyDecision c o).request = c.request := by
  unfold applyDecision toCancelled
  split <;> rfl

theorem applyDecision_correlationId (c : ToolCall) (o : Outcome) :
    (applyDecision c o).correlationId = none := by
  unfold applyDecision toCancelled
  split <;> rfl

theorem applyDecision_iff (c : ToolCall) (o : Outcome) :
    (applyDecision c o).correlationId.isSome = true
      ↔ (applyDecision c o).status = .awaitingApproval := by
  unfold applyDecision toCancelled
  split <;> simp

/-- Core preservation argument shared by the `updateStatus` success
branches: the rewritten record keeps the call's request and the
correlation-id/status relationship, the surviving registry entries come
from the old registry, and no surviving entry points at the rewritten call
while that call was awaiting approval. -/
theorem inv_update_aux {s : ManagerState} {id : String} {call newC : ToolCall}
    {p' : List (Nat × String)} {r' : List Nat}
    (hInv : Inv s)
    (hfind : s.active.find? (fun c => c.request.callId = id) = some call)
    (hreq : newC.request = call.request)
    (hiff : newC.correlationId.isSome = true ↔ newC.status = .awaitingApproval)
    (hp'sub : ∀ pr ∈ p', pr ∈ s.pending)
    (hp'link : ∀ pr ∈ p', call.status = .awaitingApproval →
        call.correlationId = some pr.1 → pr.2 = call.request.callId → False) :
    Inv { s with active := replaceCall s.active id newC, pending := p', resolved := r' } := by
  obtain ⟨h1, h2, h3, h4, h5, h6⟩ := hInv
  have hcall_mem : call ∈ s.active := List.mem_of_find?_eq_some hfind
  have hcall_id : call.request.callId = id := by simpa using List.find?_some hfind
  refine ⟨?_, h2, ?_, ?_, ?_, ?_⟩
  · intro c hc
    rcases mem_replaceCall hc with rfl | ⟨hc', _⟩
    · exact hiff
    · exact h1 c hc'
  · simpa [map_callId_replaceCall s.active id newC (hreq ▸ hcall_id)] using h3
  · intro c hc c' hc'
    rcases mem_replaceCall hc with rfl | ⟨hc'', _⟩
    · rw [hreq]
      exact h4 call hcall_mem c' hc'
    · exact h4 c hc'' c' hc'
  · intro pr hpr
    exact h5 pr (hp'sub pr hpr)
  · intro pr hpr
    obtain ⟨c, hc, hcid, hcst, hccorr⟩ := h6 pr (hp'sub pr hpr)
    by_cases hcid' : c.request.callId = id
    · have hceq : c = call :=
        List.inj_on_of_nodup_map h3 hc hcall_mem (by rw [hcid', hcall_id])
      subst hceq
      exact absurd (hp'link pr hpr hcst hccorr hcid.symm) (fun f => f)
    · exact ⟨c, mem_replaceCall_of_ne hc hcid', hcid, hcst, hccorr⟩

/-- Specialised form of `inv_update_aux` for transitions that neither leave
nor enter `AwaitingApproval` and keep the registry untouched. -/
theorem inv_update_keep {s : ManagerState} {id : String} {call newC : ToolCall}
    (hInv : Inv s)
    (hfind : s.active.find? (fun c => c.request.callId = id) = some call)
    (hreq : newC.request = call.request)
    (hnotaw : call.status ≠ .awaitingApproval)
    (hcid : newC.correlationId = call.correlationId)
    (hnewst : newC.status ≠ .awaitingApproval) :
    Inv { s with active := replaceCall s.active id newC } := by
  refine inv_update_aux hInv hfind hreq ?_ (fun pr hpr => hpr)
    (fun pr _ hst _ _ => hnotaw hst)
  have hold := hInv.1 call (List.mem_of_find?_eq_some hfind)
  rw [hcid]
  constructor
  · intro hs
    exact absurd (hold.mp hs) hnotaw
  · intro hs
    exact absurd hs hnewst

/-- `updateStatus` preserves the manager invariant. -/
theorem inv_update {s : ManagerState} {id : String} {target : Status}
    {data : TransitionData} {s' : ManagerState}
    (hInv : Inv s) (h : updateStatus s id target data = .ok s') : Inv s' := by
  have h1 := hInv.1
  unfold updateStatus at h
  split at h
  · exact absurd h (by simp)
  next call hfind =>
  have hcall_mem : call ∈ s.active := List.mem_of_find?_eq_some hfind
  split at h
  · exact absurd h (by simp)
  next hlegal =>
  have hlegal' : legalTransition call.status target = true := by
    revert hlegal; cases legalTransition call.status target <;> simp
  split at h
  -- (awaitingApproval, approval p)
  case _ p =>
    split at h
    · exact absurd h (by simp)
    next c' htoA =>
      cases h
      unfold toAwaitingApproval at htoA
      split at htoA
      · exact absurd htoA (by simp)
      next hduck =>
        cases htoA
        have hsome : p.correlationId.isSome = true := by
          revert hduck
          unfold isEventDrivenApprovalData
          cases p.correlationId.isSome <;> simp
        refine inv_update_aux hInv hfind rfl (by simp [hsome]) (fun pr hpr => hpr) ?_
        intro pr _ hst _ _
        rw [legal_awaiting_source hlegal'] at hst
        exact Status.noConfusion hst
  -- (awaitingApproval, non-approval)
  · exact absurd h (by simp)
  -- (scheduled, decision cid o)
  case _ cid o =>
    split at h
    next hst =>
      split at h
      · exact absurd h (by simp)
      next hcorr =>
        push_neg at hcorr
        split at h
        · exact absurd h (by simp)
        next hcan =>
          cases h
          refine inv_update_aux hInv hfind (applyDecision_request call o)
            (applyDecision_iff call o) (fun pr hpr => List.mem_of_mem_filter hpr) ?_
          intro pr hpr _ hcid _
          have hq := List.of_mem_filter hpr
          simp only [decide_eq_true_eq] at hq
          rw [hcorr] at hcid
          exact hq (Option.some_inj.mp hcid).symm
    · exact absurd h (by simp)
  -- (scheduled, other data) from validating
  · split at h
    next hv =>
      cases h
      exact inv_update_keep hInv hfind rfl
        (by rw [hv]; intro hh; exact Status.noConfusion hh) rfl
        (by intro hh; exact Status.noConfusion hh)
    · exact absurd h (by simp)
  -- (cancelled, decision cid o)
  case _ cid o =>
    split at h
    next hst =>
      split at h
      · exact absurd h (by simp)
      next hcorr =>
        push_neg at hcorr
        split at h
        · exact absurd h (by simp)
        next hcan =>
          cases h
          refine inv_update_aux hInv hfind (applyDecision_request call o)
            (applyDecision_iff call o) (fun pr hpr => List.mem_of_mem_filter hpr) ?_
          intro pr hpr _ hcid _
          have hq := List.of_mem_filter hpr
          simp only [decide_eq_true_eq] at hq
          rw [hcorr] at hcid
          exact hq (Option.some_inj.mp hcid).symm
    · exact absurd h (by simp)
  -- (cancelled, reason msg)
  case _ msg =>
    cases h
    refine inv_update_aux hInv hfind rfl (by simp [toCancelled])
      (fun pr hpr => List.mem_of_mem_filter hpr) ?_
    intro pr hpr _ hcid _
    have hq := List.of_mem_filter hpr
    simp only [decide_eq_true_eq] at hq
    exact hq (by rw [hcid])
  -- (cancelled, other data)
  · exact absurd h (by simp)
  -- (error, errorInfo msg)
  case _ msg =>
    cases h
    have hsrc := legal_error_source hlegal'
    have hnotaw : call.status ≠ .awaitingApproval := by
      rcases hsrc with hv | hv <;> rw [hv] <;> intro hh <;> exact Status.noConfusion hh
    exact inv_update_keep hInv hfind rfl hnotaw rfl
      (by intro hh; exact Status.noConfusion hh)
  -- (error, other data)
  · exact absurd h (by simp)
  -- (executing, _)
  · cases h
    have hsch : call.status = .scheduled := legal_executing_source hlegal'
    exact inv_update_keep hInv hfind rfl
      (by rw [hsch]; intro hh; exact Status.noConfusion hh) rfl
      (by intro hh; exact Status.noConfusion hh)
  -- (success, result d)
  case _ d =>
    cases h
    have hex : call.status = .executing := legal_success_source hlegal'
    exact inv_update_keep hInv hfind rfl
      (by rw [hex]; intro hh; exact Status.noConfusion hh) rfl
      (by intro hh; exact Status.noConfusion hh)
  -- (success, other data)
  · exact absurd h (by simp)
  -- (validating, _)
  · exact absurd h (by simp)

/-! ### `dequeue` facts -/

theorem dequeueOne_of_not_validating {c : ToolCall} (n : Nat)
    (h : c.status ≠ .validating) : dequeueOne c n = (c, n, [], []) := by
  unfold dequeueOne
  rw [if_pos h]

theorem dequeueOne_request (c : ToolCall) (n : Nat) :
    (dequeueOne c n).1.request = c.request := by
  unfold dequeueOne
  split
  · rfl
  · split
    · rfl
    · split <;> rfl

theorem dequeueOne_n_mono (c : ToolCall) (n : Nat) : n ≤ (dequeueOne c n).2.1 := by
  unfold dequeueOne
  split
  · exact le_refl n
  · split
    · exact le_refl n
    · split
      · exact Nat.le_succ n
      · exact le_refl n

theorem dequeueOne_iff {c : ToolCall} (n : Nat)
    (h : c.correlationId.isSome = true ↔ c.status = .awaitingApproval) :
    (dequeueOne c n).1.correlationId.isSome = true
      ↔ (dequeueOne c n).1.status = .awaitingApproval := by
  unfold dequeueOne
  split
  · exact h
  next hval =>
    push_neg at hval
    have hnone : c.correlationId.isSome = false := by
      cases hs : c.correlationId.isSome
      · rfl
      · rw [hval] at h
        exact absurd (h.mp hs) (by intro hh; exact Status.noConfusion hh)
    split
    · simpa using hnone
    · split
      · simp
      · simpa using hnone

/-- Exhaustive description of `dequeueOne`. -/
theorem dequeueOne_spec (c : ToolCall) (n : Nat) :
    (c.status ≠ .validating ∧ dequeueOne c n = (c, n, [], []))
    ∨ (∃ e, c.status = .validating ∧ c.request.validationError = some e ∧
        dequeueOne c n = ({ c with status := .error, errorMsg := some e }, n, [], []))
    ∨ (c.status = .validating ∧ c.request.validationError = none ∧
        c.request.needsConfirmation = true ∧
        dequeueOne c n
          = ({ c with status := .awaitingApproval, correlationId := some n,
                      confirmationDetails := some c.request.details },
             n + 1, [(n, c.request.callId)],
             [{ correlationId := n, callId := c.request.callId,
                details := c.request.details }]))
    ∨ (c.status = .validating ∧ c.request.validationError = none ∧
        c.request.needsConfirmation = false ∧
        dequeueOne c n = ({ c with status := .scheduled }, n, [], [])) := by
  unfold dequeueOne
  by_cases h1 : c.status ≠ .validating
  · rw [if_pos h1]
    exact Or.inl ⟨h1, rfl⟩
  · rw [if_neg h1]
    push_neg at h1
    cases he : c.request.validationError with
    | some e => exact Or.inr (Or.inl ⟨e, h1, rfl, rfl⟩)
    | none =>
      cases hc : c.request.needsConfirmation with
      | true =>
        refine Or.inr (Or.inr (Or.inl ⟨h1, rfl, rfl, ?_⟩))
        simp
      | false =>
        refine Or.inr (Or.inr (Or.inr ⟨h1, rfl, rfl, ?_⟩))
        simp

theorem dequeueOne_pending {c : ToolCall} {n : Nat} {pr : Nat × String}
    (h : pr ∈ (dequeueOne c n).2.2.1) :
    pr = (n, c.request.callId)
      ∧ (dequeueOne c n).2.1 = n + 1
      ∧ (dequeueOne c n).1.request.callId = c.request.callId
      ∧ (dequeueOne c n).1.status = .awaitingApproval
      ∧ (dequeueOne c n).1.correlationId = some n := by
  rcases dequeueOne_spec c n with ⟨hx, heq⟩ | ⟨e, hx, hy, heq⟩ | ⟨hx, hy, hz, heq⟩ |
    ⟨hx, hy, hz, heq⟩
  · rw [heq] at h; simp at h
  · rw [heq] at h; simp at h
  · rw [heq] at h ⊢
    simpa using h
  · rw [heq] at h; simp at h

theorem dequeueList_n_mono (l : List ToolCall) (n : Nat) :
    n ≤ (dequeueList l n).2.1 := by
  induction l generalizing n with
  | nil => exact le_refl n
  | cons c cs ih =>
    exact le_trans (dequeueOne_n_mono c n) (ih _)

theorem dequeueList_map_callId (l : List ToolCall) (n : Nat) :
    (dequeueList l n).1.map (·.request.callId) = l.map (·.request.callId) := by
  induction l generalizing n with
  | nil => rfl
  | cons c cs ih =>
    simp only [dequeueList, List.map_cons]
    rw [ih, show (dequeueOne c n).1.request.callId = c.request.callId from
      congrArg (·.callId) (dequeueOne_request c n)]

theorem dequeueList_mem_req {l : List ToolCall} {n : Nat} {c' : ToolCall}
    (h : c' ∈ (dequeueList l n).1) : ∃ c ∈ l, c'.request = c.request := by
  induction l generalizing n with
  | nil => simp [dequeueList] at h
  | cons c cs ih =>
    simp only [dequeueList, List.mem_cons] at h
    rcases h with rfl | h'
    · exact ⟨c, List.mem_cons_self c cs, dequeueOne_request c n⟩
    · obtain ⟨d, hd, hd'⟩ := ih h'
      exact ⟨d, List.mem_cons_of_mem c hd, hd'⟩

theorem dequeueList_iff {l : List ToolCall} {n : Nat}
    (h : ∀ c ∈ l, c.correlationId.isSome = true ↔ c.status = .awaitingApproval) :
    ∀ c' ∈ (dequeueList l n).1,
      c'.correlationId.isSome = true ↔ c'.status = .awaitingApproval := by
  induction l generalizing n with
  | nil => simp [dequeueList]
  | cons c cs ih =>
    intro c' hc'
    simp only [dequeueList, List.mem_cons] at hc'
    rcases hc' with rfl | hc'
    · exact dequeueOne_iff n (h c (List.mem_cons_self c cs))
    · exact ih (fun d hd => h d (List.mem_cons_of_mem c hd)) c' hc'

theorem dequeueList_stable {l : List ToolCall} {n : Nat} {c : ToolCall}
    (hc : c ∈ l) (h : c.status ≠ .validating) : c ∈ (dequeueList l n).1 := by
  induction l generalizing n with
  | nil => simp at hc
  | cons d ds ih =>
    simp only [dequeueList, List.mem_cons]
    rcases List.mem_cons.mp hc with rfl | hc'
    · left
      rw [dequeueOne_of_not_validating n h]
    · right
      exact ih hc'

theorem dequeueList_pending_bound {l : List ToolCall} {n : Nat} {pr : Nat × String}
    (h : pr ∈ (dequeueList l n).2.2.1) : n ≤ pr.1 ∧ pr.1 < (dequeueList l n).2.1 := by
  induction l generalizing n with
  | nil => simp [dequeueList] at h
  | cons c cs ih =>
    simp only [dequeueList, List.mem_append] at h
    rcases h with h' | h'
    · obtain ⟨hpr, hn, _, _, _⟩ := dequeueOne_pending h'
      subst hpr
      refine ⟨le_refl n, ?_⟩
      simp only [dequeueList]
      rw [hn]
      exact lt_of_lt_of_le (Nat.lt_succ_self n) (dequeueList_n_mono cs (n + 1))
    · obtain ⟨h₁, h₂⟩ := ih h'
      exact ⟨le_trans (dequeueOne_n_mono c n) h₁, h₂⟩

theorem dequeueList_pending_link {l : List ToolCall} {n : Nat} {pr : Nat × String}
    (h : pr ∈ (dequeueList l n).2.2.1) :
    ∃ c' ∈ (dequeueList l n).1, c'.request.callId = pr.2
      ∧ c'.status = .awaitingApproval ∧ c'.correlationId = some pr.1 := by
  induction l generalizing n with
  | nil => simp [dequeueList] at h
  | cons c cs ih =>
    simp only [dequeueList, List.mem_append] at h
    rcases h with h' | h'
    · obtain ⟨hpr, _, hid, hst, hcorr⟩ := dequeueOne_pending h'
      subst hpr
      exact ⟨(dequeueOne c n).1,
        List.mem_cons_self _ _, hid, hst, hcorr⟩
    · obtain ⟨c', hc', hfacts⟩ := ih h'
      exact ⟨c', List.mem_cons_of_mem _ hc', hfacts⟩

/-- `dequeue` preserves the manager invariant. -/
theorem inv_dequeue {s : ManagerState} (hInv : Inv s) : Inv (dequeue s) := by
  obtain ⟨h1, h2, h3, h4, h5, h6⟩ := hInv
  unfold dequeue
  refine ⟨?_, h2, ?_, ?_, ?_, ?_⟩
  · intro c hc
    exact dequeueList_iff h1 c hc
  · rw [dequeueList_map_callId]
    exact h3
  · intro c hc c' hc'
    obtain ⟨d, hd, hreq⟩ := dequeueList_mem_req hc
    rw [hreq]
    exact h4 d hd c' hc'
  · intro pr hpr
    rcases List.mem_append.mp hpr with h' | h'
    · exact lt_of_lt_of_le (h5 pr h') (dequeueList_n_mono _ _)
    · exact (dequeueList_pending_bound h').2
  · intro pr hpr
    rcases List.mem_append.mp hpr with h' | h'
    · obtain ⟨c, hc, hid, hst, hcorr⟩ := h6 pr h'
      have hc' : c ∈ (dequeueList s.active s.nextCorrelationId).1 :=
        dequeueList_stable hc (by rw [hst]; intro hh; exact Status.noConfusion hh)
      exact ⟨c, hc', hid, hst, hcorr⟩
    · exact dequeueList_pending_link h'

/-- `finalizeCall` preserves the manager invariant. -/
theorem inv_finalize {s : ManagerState} {id : String} {s' : ManagerState}
    (hInv : Inv s) (h : finalizeCall s id = .ok s') : Inv s' := by
  obtain ⟨h1, h2, h3, h4, h5, h6⟩ := hInv
  unfold finalizeCall at h
  split at h
  next c hfind =>
    have hc_mem : c ∈ s.active := List.mem_of_find?_eq_some hfind
    have hc_id : c.request.callId = id := by simpa using List.find?_some hfind
    split at h
    next hterm =>
      cases h
      refine ⟨?_, ?_, ?_, ?_, h5, ?_⟩
      · intro d hd
        exact h1 d (List.mem_of_mem_filter hd)
      · intro d hd
        rcases List.mem_append.mp hd with h' | h'
        · exact h2 d h'
        · rcases List.mem_singleton.mp h' with rfl
          refine ⟨hterm, ?_⟩
          have := h1 d hc_mem
          have hnotaw : d.status ≠ .awaitingApproval := by
            intro hh
            rw [hh] at hterm
            exact Bool.noConfusion hterm
          cases hcid : d.correlationId with
          | none => rfl
          | some k =>
            rw [hcid] at this
            exact absurd (this.mp rfl) hnotaw
      · exact ((List.filter_sublist s.active).map (·.request.callId)).nodup h3
      · intro d hd d' hd'
        have hd_mem := List.mem_of_mem_filter hd
        have hd_ne : d.request.callId ≠ id := by
          have := List.of_mem_filter hd
          simpa using this
        rcases List.mem_append.mp hd' with h' | h'
        · exact h4 d hd_mem d' h'
        · rcases List.mem_singleton.mp h' with rfl
          rw [hc_id]
          exact hd_ne
      · intro pr hpr
        obtain ⟨d, hd, hid, hst, hcorr⟩ := h6 pr hpr
        have hd_ne : d.request.callId ≠ id := by
          intro he
          have : d = c := List.inj_on_of_nodup_map h3 hd hc_mem (by rw [he, hc_id])
          subst this
          rw [hst] at hterm
          exact Bool.noConfusion hterm
        refine ⟨d, List.mem_filter.mpr ⟨hd, by simpa using hd_ne⟩, hid, hst, hcorr⟩
    · exact absurd h (by simp)
  · split at h
    · cases h
      exact ⟨h1, h2, h3, h4, h5, h6⟩
    · exact absurd h (by simp)

/-- The invariant ignores the delivery log. -/
theorem inv_deliveries {s : ManagerState} (d : List (String × Nat × Outcome))
    (hInv : Inv s) : Inv { s with deliveries := d } := hInv

/-- `submitResponse` preserves the manager invariant. -/
theorem inv_submit {s : ManagerState} {r : DecisionResponse} {s' : ManagerState}
    (hInv : Inv s) (h : submitResponse s r = .ok s') : Inv s' := by
  unfold submitResponse at h
  split at h
  · split at h <;> exact absurd h (by simp)
  next cid callId hfind =>
    exact inv_update (inv_deliveries _ hInv) h

/-- Every state reachable through manager operations satisfies the
invariant. -/
theorem reachable_inv {s : ManagerState} (h : Reachable s) : Inv s := by
  induction h with
  | refl => exact inv_initial
  | tail _ hstep ih =>
    cases hstep with
    | enqueueStep _ reqs he => exact inv_enqueue ih he
    | dequeueStep => exact inv_dequeue ih
    | updateStep _ id t d hu => exact inv_update ih hu
    | finalizeStep _ id hf => exact inv_finalize ih hf
    | submitStep _ r hs => exact inv_submit ih hs

theorem applyDecision_status (c : ToolCall) (o : Outcome) :
    (applyDecision c o).status = if o = .cancel then .cancelled else .scheduled := by
  unfold applyDecision toCancelled
  split <;> simp_all

/-- What a successful `updateStatus` does to the state: it rewrites exactly
the addressed record to one with the target status and the same request,
the registry only shrinks, the resolved set only grows, and the record's
correlation id is untouched or cleared except when entering
`AwaitingApproval`. -/
theorem updateStatus_ok_shape {s : ManagerState} {id : String} {target : Status}
    {data : TransitionData} {s' : ManagerState}
    (h : updateStatus s id target data = .ok s') :
    ∃ call newC, s.active.find? (fun c => c.request.callId = id) = some call
      ∧ legalTransition call.status target = true
      ∧ newC.request = call.request
      ∧ newC.status = target
      ∧ s'.active = replaceCall s.active id newC
      ∧ s'.completed = s.completed
      ∧ s'.nextCorrelationId = s.nextCorrelationId
      ∧ s'.deliveries = s.deliveries
      ∧ s'.published = s.published
      ∧ (∀ pr ∈ s'.pending, pr ∈ s.pending)
      ∧ (∀ k ∈ s.resolved, k ∈ s'.resolved)
      ∧ (target = .awaitingApproval ∨ newC.correlationId = none
          ∨ newC.correlationId = call.correlationId) := by
  unfold updateStatus at h
  split at h
  · exact absurd h (by simp)
  next call hfind =>
  split at h
  · exact absurd h (by simp)
  next hlegal =>
  have hlegal' : legalTransition call.status target = true := by
    revert hlegal; cases legalTransition call.status target <;> simp
  split at h
  -- (awaitingApproval, approval p)
  case _ p =>
    split at h
    · exact absurd h (by simp)
    next c' htoA =>
      cases h
      unfold toAwaitingApproval at htoA
      split at htoA
      · exact absurd htoA (by simp)
      next hduck =>
        cases htoA
        refine ⟨call,
          { call with
            status := .awaitingApproval
            correlationId := p.correlationId
            confirmationDetails := p.confirmationDetails },
          hfind, hlegal', rfl, rfl, rfl, rfl, rfl, rfl, rfl,
          fun pr hpr => hpr, fun k hk => hk, Or.inl rfl⟩
  · exact absurd h (by simp)
  -- (scheduled, decision cid o)
  case _ cid o =>
    split at h
    next hst =>
      split at h
      · exact absurd h (by simp)
      next hcorr =>
        split at h
        · exact absurd h (by simp)
        next hcan =>
          cases h
          refine ⟨call, applyDecision call o, hfind, hlegal',
            applyDecision_request call o, ?_, rfl, rfl, rfl, rfl, rfl,
            fun pr hpr => List.mem_of_mem_filter hpr,
            fun k hk => List.mem_cons_of_mem _ hk,
            Or.inr (Or.inl (applyDecision_correlationId call o))⟩
          rw [applyDecision_status, if_neg hcan]
    · exact absurd h (by simp)
  -- (scheduled, other data) from validating
  · split at h
    next hv =>
      cases h
      exact ⟨call, { call with status := .scheduled }, hfind, hlegal',
        rfl, rfl, rfl, rfl, rfl, rfl, rfl,
        fun pr hpr => hpr, fun k hk => hk, Or.inr (Or.inr rfl)⟩
    · exact absurd h (by simp)
  -- (cancelled, decision cid o)
  case _ cid o =>
    split at h
    next hst =>
      split at h
      · exact absurd h (by simp)
      next hcorr =>
        split at h
        · exact absurd h (by simp)
        next hcan =>
          push_neg at hcan
          cases h
          refine ⟨call, applyDecision call o, hfind, hlegal',
            applyDecision_request call o, ?_, rfl, rfl, rfl, rfl, rfl,
            fun pr hpr => List.mem_of_mem_filter hpr,
            fun k hk => List.mem_cons_of_mem _ hk,
            Or.inr (Or.inl (applyDecision_correlationId call o))⟩
          rw [applyDecision_status, if_pos hcan]
    · exact absurd h (by simp)
  -- (cancelled, reason msg)
  case _ msg =>
    cases h
    exact ⟨call, toCancelled call msg, hfind, hlegal', rfl, rfl, rfl, rfl, rfl,
      rfl, rfl, fun pr hpr => List.mem_of_mem_filter hpr, fun k hk => hk,
      Or.inr (Or.inl rfl)⟩
  · exact absurd h (by simp)
  -- (error, errorInfo msg)
  case _ msg =>
    cases h
    exact ⟨call, { call with status := .error, errorMsg := some msg },
      hfind, hlegal', rfl, rfl, rfl, rfl, rfl, rfl, rfl,
      fun pr hpr => hpr, fun k hk => hk, Or.inr (Or.inr rfl)⟩
  · exact absurd h (by simp)
  -- (executing, _)
  · cases h
    exact ⟨call, { call with status := .executing }, hfind, hlegal',
      rfl, rfl, rfl, rfl, rfl, rfl, rfl,
      fun pr hpr => hpr, fun k hk => hk, Or.inr (Or.inr rfl)⟩
  -- (success, result d)
  case _ d =>
    cases h
    exact ⟨call, { call with status := .success, resultDisplay := some d },
      hfind, hlegal', rfl, rfl, rfl, rfl, rfl, rfl, rfl,
      fun pr hpr => hpr, fun k hk => hk, Or.inr (Or.inr rfl)⟩
  · exact absurd h (by simp)
  · exact absurd h (by simp)

/-! ### Correlation-id uniqueness under manager-side allocation -/

/-- The operations with correlation ids allocated only by the manager
itself: like `Step`, but calls enter `AwaitingApproval` only through
`dequeue` - `updateStatus` is never invoked with that target (and hence
never with a caller-chosen correlation id). -/
inductive StepAlloc : ManagerState → ManagerState → Prop
  | enqueueStep (s : ManagerState) (reqs : List ToolCallRequest) (s' : ManagerState) :
      enqueue s reqs = .ok s' → StepAlloc s s'
  | dequeueStep (s : ManagerState) : StepAlloc s (dequeue s)
  | updateStep (s : ManagerState) (id : String) (target : Status)
      (data : TransitionData) (s' : ManagerState) :
      target ≠ .awaitingApproval →
      updateStatus s id target data = .ok s' → StepAlloc s s'
  | finalizeStep (s : ManagerState) (id : String) (s' : ManagerState) :
      finalizeCall s id = .ok s' → StepAlloc s s'
  | submitStep (s : ManagerState) (r : DecisionResponse) (s' : ManagerState) :
      submitResponse s r = .ok s' → StepAlloc s s'

/-- States reachable when the manager is the sole allocator. -/
def ReachableAlloc (s : ManagerState) : Prop :=
  Relation.ReflTransGen StepAlloc initialState s

/-- The strengthened invariant: the base invariant plus bounded and
pairwise distinct active correlation ids. -/
def InvA (s : ManagerState) : Prop :=
  Inv s
  ∧ (∀ c ∈ s.active, ∀ k, c.correlationId = some k → k < s.nextCorrelationId)
  ∧ (s.active.filterMap (·.correlationId)).Nodup

theorem dequeueList_cid_source {l : List ToolCall} {n : Nat} {c' : ToolCall}
    (h : c' ∈ (dequeueList l n).1) (k : Nat) (hk : c'.correlationId = some k) :
    (∃ c ∈ l, c.correlationId = some k) ∨ n ≤ k := by
  induction l generalizing n with
  | nil => simp [dequeueList] at h
  | cons c cs ih =>
    simp only [dequeueList, List.mem_cons] at h
    rcases h with rfl | h'
    · rcases dequeueOne_spec c n with ⟨hx, heq⟩ | ⟨e, hx, hy, heq⟩ |
        ⟨hx, hy, hz, heq⟩ | ⟨hx, hy, hz, heq⟩ <;> rw [heq] at hk
      · exact Or.inl ⟨c, List.mem_cons_self c cs, hk⟩
      · exact Or.inl ⟨c, List.mem_cons_self c cs, hk⟩
      · right
        have hnk : n = k := by simpa using hk
        omega
      · exact Or.inl ⟨c, List.mem_cons_self c cs, hk⟩
    · rcases ih h' with ⟨d, hd, hdk⟩ | hge
      · exact Or.inl ⟨d, List.mem_cons_of_mem c hd, hdk⟩
      · exact Or.inr (le_trans (dequeueOne_n_mono c n) hge)

theorem cid_none_of_validating {c : ToolCall}
    (hiff : c.correlationId.isSome = true ↔ c.status = .awaitingApproval)
    (hv : c.status = .validating) : c.correlationId = none := by
  cases hk : c.correlationId with
  | none => rfl
  | some k =>
    have : c.status = .awaitingApproval := hiff.mp (by rw [hk]; rfl)
    rw [hv] at this
    exact Status.noConfusion this

theorem dequeueList_corr_nodup {l : List ToolCall} {n : Nat}
    (hiff : ∀ c ∈ l, c.correlationId.isSome = true ↔ c.status = .awaitingApproval)
    (hbound : ∀ c ∈ l, ∀ k, c.correlationId = some k → k < n)
    (hnd : (l.filterMap (·.correlationId)).Nodup) :
    ((dequeueList l n).1.filterMap (·.correlationId)).Nodup
    ∧ (∀ c' ∈ (dequeueList l n).1, ∀ k, c'.correlationId = some k →
        k < (dequeueList l n).2.1) := by
  induction l generalizing n with
  | nil => exact ⟨List.nodup_nil, by simp [dequeueList]⟩
  | cons c cs ih =>
    have hiff_tl : ∀ d ∈ cs,
        d.correlationId.isSome = true ↔ d.status = .awaitingApproval :=
      fun d hd => hiff d (List.mem_cons_of_mem c hd)
    have hbound_c := hbound c (List.mem_cons_self c cs)
    have hbound_tl : ∀ d ∈ cs, ∀ k, d.correlationId = some k → k < n :=
      fun d hd => hbound d (List.mem_cons_of_mem c hd)
    rcases dequeueOne_spec c n with ⟨hx, heq⟩ | ⟨e, hx, hy, heq⟩ |
      ⟨hx, hy, hz, heq⟩ | ⟨hx, hy, hz, heq⟩
    all_goals simp only [dequeueList, heq]
    -- (a) untouched call, allocator n
    · obtain ⟨tnd, tbound⟩ := ih hiff_tl hbound_tl
        (by rw [List.filterMap_cons] at hnd
            cases hk : c.correlationId with
            | none => rw [hk] at hnd; exact hnd
            | some k => rw [hk] at hnd; exact (List.nodup_cons.mp hnd).2)
      constructor
      · rw [List.filterMap_cons]
        cases hk : c.correlationId with
        | none => exact tnd
        | some k =>
          rw [List.nodup_cons]
          refine ⟨?_, tnd⟩
          intro hk_mem
          obtain ⟨d, hd, hdk⟩ := List.mem_filterMap.mp hk_mem
          rcases dequeueList_cid_source hd k hdk with ⟨d₀, hd₀, hd₀k⟩ | hge
          · rw [List.filterMap_cons, hk, List.nodup_cons] at hnd
            exact hnd.1 (List.mem_filterMap.mpr ⟨d₀, hd₀, hd₀k⟩)
          · exact absurd (hbound_c k hk) (by omega)
      · intro c' hc' k hk
        rcases List.mem_cons.mp hc' with rfl | hc''
        · exact lt_of_lt_of_le (hbound_c k hk) (dequeueList_n_mono cs n)
        · exact tbound c' hc'' k hk
    -- (b) validation failure, allocator n
    · have hcnone : c.correlationId = none :=
        cid_none_of_validating (hiff c (List.mem_cons_self c cs)) hx
      obtain ⟨tnd, tbound⟩ := ih hiff_tl hbound_tl
        (by rw [List.filterMap_cons, hcnone] at hnd; exact hnd)
      constructor
      · rw [List.filterMap_cons]
        simp only [hcnone]
        exact tnd
      · intro c' hc' k hk
        rcases List.mem_cons.mp hc' with rfl | hc''
        · simp [hcnone] at hk
        · exact tbound c' hc'' k hk
    -- (c) awaiting approval, allocator n + 1
    · have hbound_tl' : ∀ d ∈ cs, ∀ k, d.correlationId = some k → k < n + 1 :=
        fun d hd k hk => lt_trans (hbound_tl d hd k hk) (Nat.lt_succ_self n)
      have hcnone : c.correlationId = none :=
        cid_none_of_validating (hiff c (List.mem_cons_self c cs)) hx
      obtain ⟨tnd, tbound⟩ := ih hiff_tl hbound_tl'
        (by rw [List.filterMap_cons, hcnone] at hnd; exact hnd)
      constructor
      · rw [List.filterMap_cons]
        simp only
        rw [List.nodup_cons]
        refine ⟨?_, tnd⟩
        intro hn_mem
        obtain ⟨d, hd, hdk⟩ := List.mem_filterMap.mp hn_mem
        rcases dequeueList_cid_source hd n hdk with ⟨d₀, hd₀, hd₀k⟩ | hge
        · exact absurd (hbound_tl d₀ hd₀ n hd₀k) (by omega)
        · omega
      · intro c' hc' k hk
        rcases List.mem_cons.mp hc' with rfl | hc''
        · have hkn : n = k := by simpa using hk
          subst hkn
          exact lt_of_lt_of_le (Nat.lt_succ_self n) (dequeueList_n_mono cs (n + 1))
        · exact tbound c' hc'' k hk
    -- (d) scheduled, allocator n
    · have hcnone : c.correlationId = none :=
        cid_none_of_validating (hiff c (List.mem_cons_self c cs)) hx
      obtain ⟨tnd, tbound⟩ := ih hiff_tl hbound_tl
        (by rw [List.filterMap_cons, hcnone] at hnd; exact hnd)
      constructor
      · rw [List.filterMap_cons]
        simp only [hcnone]
        exact tnd
      · intro c' hc' k hk
        rcases List.mem_cons.mp hc' with rfl | hc''
        · simp [hcnone] at hk
        · exact tbound c' hc'' k hk

/-- Replacing one element by one whose image under `f` is the same or
dropped only shrinks the `filterMap`. -/
theorem filterMap_replace_sublist {α β : Type} (f : α → Option β)
    (l₁ l₂ : List α) (a b : α) (h : f b = none ∨ f b = f a) :
    List.Sublist ((l₁ ++ b :: l₂).filterMap f) ((l₁ ++ a :: l₂).filterMap f) := by
  rw [List.filterMap_append, List.filterMap_append, List.filterMap_cons,
    List.filterMap_cons]
  rcases h with hb | hb
  · rw [hb]
    cases hfa : f a with
    | none => exact List.Sublist.refl _
    | some v => exact List.Sublist.append_left (List.sublist_cons_self v _) _
  · rw [hb]

theorem enqueue_ok_shape {s : ManagerState} {reqs : List ToolCallRequest}
    {s' : ManagerState} (h : enqueue s reqs = .ok s') :
    (∀ c ∈ s.active, c ∈ s'.active)
      ∧ (∀ c ∈ s'.active, c ∈ s.active ∨ (c.status = .validating ∧ c.correlationId = none))
      ∧ s'.completed = s.completed
      ∧ s'.nextCorrelationId = s.nextCorrelationId
      ∧ s'.pending = s.pending
      ∧ s'.published = s.published
      ∧ s'.resolved = s.resolved
      ∧ s'.deliveries = s.deliveries := by
  unfold enqueue at h
  split at h
  · cases h
    refine ⟨fun c hc => List.mem_append.mpr (Or.inl hc), ?_, rfl, rfl, rfl, rfl, rfl, rfl⟩
    intro c hc
    rcases List.mem_append.mp hc with hc' | hc'
    · exact Or.inl hc'
    · rcases List.mem_map.mp hc' with ⟨r, _, rfl⟩
      exact Or.inr ⟨rfl, rfl⟩
  · exact absurd h (by simp)

theorem finalize_ok_shape {s : ManagerState} {id : String} {s' : ManagerState}
    (h : finalizeCall s id = .ok s') :
    List.Sublist s'.active s.active
      ∧ s'.nextCorrelationId = s.nextCorrelationId
      ∧ s'.pending = s.pending
      ∧ s'.published = s.published
      ∧ s'.resolved = s.resolved
      ∧ s'.deliveries = s.deliveries := by
  unfold finalizeCall at h
  split at h
  · split at h
    · cases h
      exact ⟨List.filter_sublist _, rfl, rfl, rfl, rfl, rfl⟩
    · exact absurd h (by simp)
  · split at h
    · cases h
      exact ⟨List.Sublist.refl _, rfl, rfl, rfl, rfl, rfl⟩
    · exact absurd h (by simp)

/-- `updateStatus` with a target other than `AwaitingApproval` preserves the
strengthened invariant. -/
theorem invA_update {s : ManagerState} {id : String} {target : Status}
    {data : TransitionData} {s' : ManagerState}
    (hInvA : InvA s) (htarget : target ≠ .awaitingApproval)
    (h : updateStatus s id target data = .ok s') : InvA s' := by
  obtain ⟨hInv, hbound, hnd⟩ := hInvA
  refine ⟨inv_update hInv h, ?_⟩
  obtain ⟨call, newC, hfind, _, _, _, hact, _, hnext, _, _, _, _, hcid⟩ :=
    updateStatus_ok_shape h
  have hcid' : newC.correlationId = none ∨ newC.correlationId = call.correlationId := by
    rcases hcid with hc | hc | hc
    · exact absurd hc htarget
    · exact Or.inl hc
    · exact Or.inr hc
  obtain ⟨l₁, l₂, hl, _, _, hrepl⟩ :=
    replaceCall_decomp hInv.2.2.1 hfind newC
  have hcall_mem : call ∈ s.active := List.mem_of_find?_eq_some hfind
  constructor
  · intro c hc k hk
    rw [hnext]
    rcases mem_replaceCall (hact ▸ hc) with rfl | ⟨hc', _⟩
    · rcases hcid' with hn | hn
      · rw [hn] at hk; exact Option.noConfusion hk
      · exact hbound call hcall_mem k (hn ▸ hk)
    · exact hbound c hc' k hk
  · rw [hact, hrepl]
    refine (filterMap_replace_sublist (·.correlationId) l₁ l₂ call newC hcid').nodup ?_
    rw [← hl]
    exact hnd

/-- All `StepAlloc` operations preserve the strengthened invariant. -/
theorem invA_step {s s' : ManagerState} (hInvA : InvA s) (h : StepAlloc s s') :
    InvA s' := by
  obtain ⟨hInv, hbound, hnd⟩ := hInvA
  cases h with
  | enqueueStep =>
    rename_i reqs he
    refine ⟨inv_enqueue hInv he, ?_, ?_⟩
    · obtain ⟨_, hmem, _, hnext, _⟩ := enqueue_ok_shape he
      intro c hc k hk
      rcases hmem c hc with hc' | ⟨_, hnone⟩
      · rw [hnext]
        exact hbound c hc' k hk
      · rw [hnone] at hk
        exact Option.noConfusion hk
    · obtain ⟨hkeep, hmem, _⟩ := enqueue_ok_shape he
      unfold enqueue at he
      split at he
      · cases he
        rw [List.filterMap_append]
        have hnil : ((reqs.map fun r =>
            ({ request := r, status := .validating, correlationId := none
               confirmationDetails := none, outcome := none
               resultDisplay := none, errorMsg := none } : ToolCall)).filterMap
            (·.correlationId)) = [] := by
          rw [List.filterMap_eq_nil_iff]
          intro c hc
          rcases List.mem_map.mp hc with ⟨r, _, rfl⟩
          rfl
        rw [hnil, List.append_nil]
        exact hnd
      · exact absurd he (by simp)
  | dequeueStep =>
    obtain ⟨tnd, tbound⟩ := dequeueList_corr_nodup hInv.1 hbound hnd
    exact ⟨inv_dequeue hInv, tbound, tnd⟩
  | updateStep =>
    rename_i id target data hne hu
    exact invA_update ⟨hInv, hbound, hnd⟩ hne hu
  | finalizeStep =>
    rename_i id hf
    obtain ⟨hsub, hnext, _⟩ := finalize_ok_shape hf
    refine ⟨inv_finalize hInv hf, ?_, (hsub.filterMap (·.correlationId)).nodup hnd⟩
    intro c hc k hk
    rw [hnext]
    exact hbound c (hsub.mem hc) k hk
  | submitStep =>
    rename_i r hs
    unfold submitResponse at hs
    split at hs
    · split at hs <;> exact absurd hs (by simp)
    next cid callId hfind =>
      have htgt : (if r.outcome = .cancel then Status.cancelled else Status.scheduled)
          ≠ .awaitingApproval := by
        split <;> intro hh <;> exact Status.noConfusion hh
      have hs2 : updateStatus
          { s with deliveries := s.deliveries ++ [(callId, cid, r.outcome)] }
          callId (if r.outcome = .cancel then Status.cancelled else Status.scheduled)
          (.decision cid r.outcome) = .ok s' := hs
      have hIA : InvA { s with deliveries := s.deliveries ++ [(callId, cid, r.outcome)] } :=
        ⟨hInv, hbound, hnd⟩
      exact invA_update hIA htgt hs2

/-- Every allocator-respecting reachable state satisfies the strengthened
invariant. -/
theorem reachableAlloc_invA {s : ManagerState} (h : ReachableAlloc s) : InvA s := by
  induction h with
  | refl => exact ⟨inv_initial, by simp [initialState], by simp [initialState]⟩
  | tail _ hstep ih => exact invA_step ih hstep

/-! ## C5: the correlation-id invariants -/

/-- The state after enqueuing the two fixture requests. -/
def dupState1 : ManagerState :=
  match enqueue initialState [editRequest, infoRequest] with
  | .ok t => t
  | .error _ => initialState

/-- ... after sending "edit-1" to `AwaitingApproval` with a caller-chosen
correlation id 5. -/
def dupState2 : ManagerState :=
  match updateStatus dupState1 "edit-1" .awaitingApproval
      (.approval { correlationId := some 5, confirmationDetails := some editDetails }) with
  | .ok t => t
  | .error _ => initialState

/-- ... after also sending "info-1" to `AwaitingApproval` with the same
caller-chosen correlation id 5. -/
def dupState3 : ManagerState :=
  match updateStatus dupState2 "info-1" .awaitingApproval
      (.approval { correlationId := some 5
                   confirmationDetails := some (.info "Confirm" "Proceed?") }) with
  | .ok t => t
  | .error _ => initialState

/-- C5 counterexample: a state reachable through State Manager operations
in which two distinct active calls hold the same correlation id -
`updateStatus` accepts a caller-chosen `correlationId` in its
`awaiting_approval` payload (the tests pass the literal `'123'`), so the
manager is not the sole allocator and the at-most-one-holder part of the
claimed invariant fails on the reachable-state space as stated. -/
theorem correlationId_not_unique_reachable :
    Reachable dupState3
    ∧ ¬ (dupState3.active.filterMap (·.correlationId)).Nodup
    ∧ ∃ c₁ ∈ dupState3.active, ∃ c₂ ∈ dupState3.active,
        c₁ ≠ c₂ ∧ c₁.correlationId = some 5 ∧ c₂.correlationId = some 5 := by
  refine ⟨?_, by decide, by decide⟩
  have h1 : enqueue initialState [editRequest, infoRequest] = .ok dupState1 := by rfl
  have h2 : updateStatus dupState1 "edit-1" .awaitingApproval
      (.approval { correlationId := some 5, confirmationDetails := some editDetails })
      = .ok dupState2 := by rfl
  have h3 : updateStatus dupState2 "info-1" .awaitingApproval
      (.approval { correlationId := some 5
                   confirmationDetails := some (.info "Confirm" "Proceed?") })
      = .ok dupState3 := by rfl
  exact Relation.ReflTransGen.tail
    (Relation.ReflTransGen.tail
      (Relation.ReflTransGen.single (Step.enqueueStep _ _ _ h1))
      (Step.updateStep _ _ _ _ _ h2))
    (Step.updateStep _ _ _ _ _ h3)

/-- C5 (amended): in every reachable state an active `ToolCall` carries a
`correlationId` exactly when its status is `AwaitingApproval` - so every
transition out of that state clears it - and completed calls carry none;
and when the manager is the sole allocator of correlation ids (calls enter
`AwaitingApproval` only through `dequeue`; `updateStatus` is never handed a
caller-chosen id) at most one active call holds any given correlation id.
The restriction is forced: a direct `updateStatus` to `awaiting_approval`
can install a duplicate caller-chosen id. -/
theorem correlationId_iff_awaiting_and_unique :
    (∀ s, Reachable s →
      (∀ c ∈ s.active, c.correlationId.isSome = true ↔ c.status = .awaitingApproval)
      ∧ (∀ c ∈ s.completed, c.correlationId = none))
    ∧ (∀ s, ReachableAlloc s → (s.active.filterMap (·.correlationId)).Nodup) := by
  constructor
  · intro s hs
    have hInv := reachable_inv hs
    exact ⟨hInv.1, fun c hc => (hInv.2.1 c hc).2⟩
  · intro s hs
    exact (reachableAlloc_invA hs).2.2

/-- Witness for `correlationId_iff_awaiting_and_unique` at the state with
two manager-allocated waiting calls obtained by enqueue + dequeue. -/
theorem correlationId_iff_awaiting_and_unique_witness :
    ((∀ c ∈ (dequeue dupState1).active,
        c.correlationId.isSome = true ↔ c.status = .awaitingApproval)
      ∧ (∀ c ∈ (dequeue dupState1).completed, c.correlationId = none))
    ∧ ((dequeue dupState1).active.filterMap (·.correlationId)).Nodup := by
  have h1 : enqueue initialState [editRequest, infoRequest] = .ok dupState1 := by rfl
  refine ⟨correlationId_iff_awaiting_and_unique.1 (dequeue dupState1) ?_,
    correlationId_iff_awaiting_and_unique.2 (dequeue dupState1) ?_⟩
  · exact Relation.ReflTransGen.tail
      (Relation.ReflTransGen.single (Step.enqueueStep _ _ _ h1))
      (Step.dequeueStep _)
  · exact Relation.ReflTransGen.tail
      (Relation.ReflTransGen.single (StepAlloc.enqueueStep _ _ _ h1))
      (StepAlloc.dequeueStep _)

/-! ## C3 and C4: the confirmation-channel guarantees -/

/-- The lifecycle status the manager reports for a call id: the active
record if present, otherwise the finalized record. -/
def statusOf (s : ManagerState) (id : String) : Option Status :=
  match s.active.find? (fun c => c.request.callId = id) with
  | some c => some c.status
  | none => (s.completed.find? (fun c => c.request.callId = id)).map (·.status)

theorem legal_cancelled_false (t : Status) : legalTransition .cancelled t = false := by
  cases t <;> rfl

/-- No transition leaves a terminal status. -/
theorem legal_terminal_false {st t : Status} (h : st.isTerminal = true) :
    legalTransition st t = false := by
  cases st <;> cases t <;> simp [Status.isTerminal] at h ⊢ <;> rfl

theorem find?_none_iff_callId {l : List ToolCall} {id : String} :
    l.find? (fun c => c.request.callId = id) = none ↔ id ∉ l.map (·.request.callId) := by
  rw [List.find?_eq_none]
  constructor
  · intro h hid
    rcases List.mem_map.mp hid with ⟨c, hc, hcid⟩
    exact h c hc (by simpa using hcid)
  · intro h c hc hcid
    exact h (List.mem_map.mpr ⟨c, hc, by simpa using hcid⟩)

/-- `replaceCall` for another call id leaves `find?` by call id unchanged. -/
theorem find?_replaceCall {l : List ToolCall} {id id₂ : String} {n : ToolCall}
    (hn : n.request.callId = id₂) (hne : id₂ ≠ id) :
    (replaceCall l id₂ n).find? (fun c => c.request.callId = id)
      = l.find? (fun c => c.request.callId = id) := by
  induction l with
  | nil => rfl
  | cons c cs ih =>
    unfold replaceCall at ih ⊢
    simp only [List.map_cons]
    by_cases hc : c.request.callId = id₂
    · rw [if_pos hc]
      have hcne : ¬ (c.request.callId = id) := by rw [hc]; exact hne
      have hnne : ¬ (n.request.callId = id) := by rw [hn]; exact hne
      rw [List.find?_cons, List.find?_cons]
      rw [show (decide (n.request.callId = id)) = false by simp [hnne],
        show (decide (c.request.callId = id)) = false by simp [hcne]]
      exact ih
    · rw [if_neg hc]
      rw [List.find?_cons, List.find?_cons]
      cases hd : decide (c.request.callId = id)
      · exact ih
      · rfl

/-- `find?` commutes with a filter that keeps everything the predicate
accepts. -/
theorem find?_filter_of_imp {l : List ToolCall} {p q : ToolCall → Bool}
    (h : ∀ x, p x = true → q x = true) :
    (l.filter q).find? p = l.find? p := by
  induction l with
  | nil => rfl
  | cons c cs ih =>
    rw [List.filter_cons]
    by_cases hq : q c = true
    · rw [if_pos hq, List.find?_cons, List.find?_cons]
      cases hp : p c
      · exact ih
      · rfl
    · rw [if_neg hq, List.find?_cons]
      cases hp : p c
      · exact ih
      · exact absurd (h c hp) hq

/-- `dequeueList` does not disturb calls that are past validation. -/
theorem dequeueList_find_stable {l : List ToolCall} {n : Nat} {c : ToolCall}
    {id : String}
    (hfind : l.find? (fun x => x.request.callId = id) = some c)
    (hst : c.status ≠ .validating) :
    (dequeueList l n).1.find? (fun x => x.request.callId = id) = some c := by
  induction l generalizing n with
  | nil => simp at hfind
  | cons d ds ih =>
    rw [List.find?_cons] at hfind
    simp only [dequeueList, List.find?_cons]
    have hid : (dequeueOne d n).1.request.callId = d.request.callId :=
      congrArg (·.callId) (dequeueOne_request d n)
    cases hd : decide (d.request.callId = id) with
    | true =>
      rw [hd] at hfind
      cases hfind
      rw [show (decide ((dequeueOne c n).1.request.callId = id)) = true by
        rw [hid]; exact hd]
      rw [dequeueOne_of_not_validating n hst]
    | false =>
      rw [hd] at hfind
      rw [show (decide ((dequeueOne d n).1.request.callId = id)) = false by
        rw [hid]; exact hd]
      exact ih hfind

/-- `dequeue` never invents a record for an unknown call id. -/
theorem dequeueList_find_none {l : List ToolCall} {n : Nat} {id : String}
    (hfind : l.find? (fun x => x.request.callId = id) = none) :
    (dequeueList l n).1.find? (fun x => x.request.callId = id) = none := by
  rw [find?_none_iff_callId] at hfind ⊢
  rw [dequeueList_map_callId]
  exact hfind

/-- A terminal status reported for a call id survives `updateStatus`. -/
theorem terminal_statusOf_update {s s' : ManagerState} {id id₂ : String}
    {target : Status} {data : TransitionData} {st : Status}
    (hterm : st.isTerminal = true) (hst : statusOf s id = some st)
    (hu : updateStatus s id₂ target data = .ok s') : statusOf s' id = some st := by
  unfold statusOf at hst
  obtain ⟨call, newC, hfind, hlegal, hreq, _, hact, hcomp, _, _, _, _, _, _⟩ :=
    updateStatus_ok_shape hu
  unfold statusOf
  rw [hact, hcomp]
  by_cases hid : id₂ = id
  · subst hid
    cases hfa : s.active.find? (fun c => c.request.callId = id₂) with
    | none => rw [hfa] at hfind; exact Option.noConfusion hfind
    | some c =>
      rw [hfa] at hst hfind
      cases hfind
      have hcst : call.status = st := by simpa using hst
      rw [hcst, legal_terminal_false hterm] at hlegal
      exact Bool.noConfusion hlegal
  · rw [find?_replaceCall (by rw [hreq]; simpa using List.find?_some hfind) hid]
    exact hst

/-- A terminal status reported for a call id survives every manager
operation. -/
theorem terminal_statusOf_step {s s' : ManagerState} {id : String} {st : Status}
    (hInv : Inv s) (hterm : st.isTerminal = true)
    (hst : statusOf s id = some st) (h : Step s s') : statusOf s' id = some st := by
  have hst0 := hst
  unfold statusOf at hst
  cases h with
  | enqueueStep =>
    rename_i reqs he
    unfold enqueue at he
    split at he
    next hcond =>
      cases he
      unfold statusOf
      simp only [List.find?_append]
      cases hfa : s.active.find? (fun c => c.request.callId = id) with
      | some c =>
        rw [hfa] at hst
        simp only [hfa, Option.or_some]
        exact hst
      | none =>
        rw [hfa] at hst
        have hnew : (reqs.map fun r =>
            ({ request := r, status := .validating, correlationId := none
               confirmationDetails := none, outcome := none
               resultDisplay := none, errorMsg := none } : ToolCall)).find?
            (fun c => c.request.callId = id) = none := by
          rw [List.find?_eq_none]
          intro x hx
          rcases List.mem_map.mp hx with ⟨r, hr, rfl⟩
          simp only [decide_eq_true_eq]
          intro hrid
          cases hco : s.completed.find? (fun c => c.request.callId = id) with
          | none => rw [hco] at hst; exact Option.noConfusion hst
          | some c' =>
            have hc'id : c'.request.callId = id := by
              simpa using List.find?_some hco
            exact (hcond.2 r hr).2 c' (List.mem_of_find?_eq_some hco) (by rw [hrid, hc'id])
        rw [hnew]
        exact hst
    · exact absurd he (by simp)
  | dequeueStep =>
    unfold statusOf dequeue
    cases hfa : s.active.find? (fun c => c.request.callId = id) with
    | some c =>
      rw [hfa] at hst
      have hcst : c.status = st := by simpa using hst
      have hcnv : c.status ≠ .validating := by
        rw [hcst]
        intro hh
        rw [hh] at hterm
        exact Bool.noConfusion hterm
      rw [dequeueList_find_stable hfa hcnv]
      exact hst
    | none =>
      rw [hfa] at hst
      rw [dequeueList_find_none hfa]
      exact hst
  | updateStep =>
    rename_i id₂ target data hu
    exact terminal_statusOf_update hterm hst0 hu
  | finalizeStep =>
    rename_i id₂ hf
    unfold finalizeCall at hf
    split at hf
    next c hfind2 =>
      have hc_id : c.request.callId = id₂ := by simpa using List.find?_some hfind2
      split at hf
      next hterm2 =>
        cases hf
        unfold statusOf
        by_cases hid : id₂ = id
        · subst hid
          cases hfa : s.active.find? (fun x => x.request.callId = id₂) with
          | none => rw [hfa] at hfind2; exact Option.noConfusion hfind2
          | some c' =>
            rw [hfa] at hst hfind2
            cases hfind2
            have hnone : (s.active.filter
                (fun c' => c'.request.callId ≠ id₂)).find?
                (fun x => x.request.callId = id₂) = none := by
              rw [List.find?_eq_none]
              intro x hx
              have := List.of_mem_filter hx
              simpa using this
            rw [hnone]
            have hcompnone : s.completed.find? (fun x => x.request.callId = id₂) = none := by
              rw [List.find?_eq_none]
              intro x hx hxid
              have hne := hInv.2.2.2.1 c (List.mem_of_find?_eq_some hfa) x hx
              simp only [decide_eq_true_eq] at hxid
              exact hne (by rw [hc_id, hxid])
            rw [List.find?_append, hcompnone]
            simp only [Option.none_or]
            rw [List.find?_cons, show (decide (c.request.callId = id₂)) = true by
              simp [hc_id]]
            simpa using hst
        · have hkeep : (s.active.filter (fun c' => c'.request.callId ≠ id₂)).find?
              (fun x => x.request.callId = id) =
              s.active.find? (fun x => x.request.callId = id) := by
            apply find?_filter_of_imp
            intro x hx
            simp only [decide_eq_true_eq] at hx ⊢
            rw [hx]
            exact fun hh => hid hh.symm
          rw [hkeep]
          cases hfa : s.active.find? (fun x => x.request.callId = id) with
          | some c' =>
            rw [hfa] at hst
            exact hst
          | none =>
            rw [hfa] at hst
            rw [List.find?_append]
            have hcnot : ([c].find? (fun x => x.request.callId = id)) = none := by
              rw [List.find?_eq_none]
              intro x hx
              rcases List.mem_singleton.mp hx with rfl
              simp only [decide_eq_true_eq]
              rw [hc_id]
              exact fun hh => hid hh
            rw [hcnot]
            cases hco : s.completed.find? (fun x => x.request.callId = id) with
            | none => rw [hco] at hst; exact Option.noConfusion hst
            | some c'' =>
              rw [hco] at hst
              simpa using hst
      · exact absurd hf (by simp)
    · split at hf
      · cases hf
        unfold statusOf
        exact hst
      · exact absurd hf (by simp)
  | submitStep =>
    rename_i r hsub
    unfold submitResponse at hsub
    split at hsub
    · split at hsub <;> exact absurd hsub (by simp)
    next cid callId hfindp =>
      have hst' : statusOf
          { s with deliveries := s.deliveries ++ [(callId, cid, r.outcome)] } id
          = some st := hst0
      exact terminal_statusOf_update hterm hst' hsub

/-- After a correlation id has been resolved: it is recorded, no pending
entry carries it, and the allocator is already past it. -/
def ResolvedDone (cid : Nat) (s : ManagerState) : Prop :=
  cid ∈ s.resolved ∧ (∀ pr ∈ s.pending, pr.1 ≠ cid) ∧ cid < s.nextCorrelationId

/-- The pending/resolved bookkeeping of a successful decision transition. -/
theorem updateStatus_ok_decision {s : ManagerState} {id : String} {target : Status}
    {cid : Nat} {o : Outcome} {s' : ManagerState}
    (htgt : target = .scheduled ∨ target = .cancelled)
    (h : updateStatus s id target (.decision cid o) = .ok s') :
    s'.pending = s.pending.filter (fun pr => pr.1 ≠ cid)
      ∧ s'.resolved = cid :: s.resolved := by
  rcases htgt with rfl | rfl
  all_goals simp only [updateStatus] at h
  all_goals split at h
  · exact absurd h (by simp)
  next call hfind =>
    split at h
    · exact absurd h (by simp)
    next hlegal =>
      split at h
      next hst =>
        split at h
        · exact absurd h (by simp)
        · split at h
          · exact absurd h (by simp)
          · cases h
            exact ⟨rfl, rfl⟩
      · exact absurd h (by simp)
  · exact absurd h (by simp)
  next call hfind =>
    split at h
    · exact absurd h (by simp)
    next hlegal =>
      split at h
      next hst =>
        split at h
        · exact absurd h (by simp)
        · split at h
          · exact absurd h (by simp)
          · cases h
            exact ⟨rfl, rfl⟩
      · exact absurd h (by simp)

/-- Once resolved, a correlation id stays resolved, never re-enters the
registry, and no further decision for it is ever delivered. -/
theorem resolvedDone_step {cid : Nat} {s s' : ManagerState}
    (hP : ResolvedDone cid s) (h : Step s s') :
    ResolvedDone cid s'
    ∧ s'.deliveries.filter (fun dv => dv.2.1 = cid)
        = s.deliveries.filter (fun dv => dv.2.1 = cid) := by
  obtain ⟨hres, hpend, hlt⟩ := hP
  cases h with
  | enqueueStep =>
    rename_i reqs he
    obtain ⟨_, _, _, hnext, hpe, _, hre, hde⟩ := enqueue_ok_shape he
    refine ⟨⟨?_, ?_, ?_⟩, ?_⟩
    · rw [hre]; exact hres
    · intro pr hpr; rw [hpe] at hpr; exact hpend pr hpr
    · rw [hnext]; exact hlt
    · rw [hde]
  | dequeueStep =>
    refine ⟨⟨hres, ?_, ?_⟩, rfl⟩
    · intro pr hpr
      rcases List.mem_append.mp hpr with h' | h'
      · exact hpend pr h'
      · have := (dequeueList_pending_bound h').1
        omega
    · exact lt_of_lt_of_le hlt (dequeueList_n_mono _ _)
  | updateStep =>
    rename_i id t d hu
    obtain ⟨_, _, _, _, _, _, _, _, hnext, hde, _, hpsub, hrsup, _⟩ :=
      updateStatus_ok_shape hu
    refine ⟨⟨hrsup cid hres, fun pr hpr => hpend pr (hpsub pr hpr), ?_⟩, ?_⟩
    · rw [hnext]; exact hlt
    · rw [hde]
  | finalizeStep =>
    rename_i id hf
    obtain ⟨_, hnext, hpe, _, hre, hde⟩ := finalize_ok_shape hf
    refine ⟨⟨?_, ?_, ?_⟩, ?_⟩
    · rw [hre]; exact hres
    · intro pr hpr; rw [hpe] at hpr; exact hpend pr hpr
    · rw [hnext]; exact hlt
    · rw [hde]
  | submitStep =>
    rename_i r hsub
    unfold submitResponse at hsub
    split at hsub
    · split at hsub <;> exact absurd hsub (by simp)
    next cid₂ id₂ hfindP =>
      have hmem : (cid₂, id₂) ∈ s.pending := List.mem_of_find?_eq_some hfindP
      have hne : cid₂ ≠ cid := hpend (cid₂, id₂) hmem
      obtain ⟨_, _, _, _, _, _, _, _, hnext, hde, _, hpsub, hrsup, _⟩ :=
        updateStatus_ok_shape hsub
      refine ⟨⟨hrsup cid hres, ?_, ?_⟩, ?_⟩
      · intro pr hpr
        exact hpend pr (hpsub pr hpr)
      · rw [hnext]
        exact hlt
      · rw [hde]
        simp only [List.filter_append, List.filter_cons, List.filter_nil]
        rw [show (decide ((id₂, cid₂, r.outcome).2.1 = cid)) = false by
          simp [hne]]
        simp

/-- A decision for a waiting call with the matching stored correlation id
always goes through. -/
theorem updateStatus_decision_succeeds {s : ManagerState} {idc : String} {c : ToolCall}
    {cid : Nat} (o : Outcome)
    (hfind : s.active.find? (fun x => x.request.callId = idc) = some c)
    (hst : c.status = .awaitingApproval) (hcorr : c.correlationId = some cid) :
    ∃ s', updateStatus s idc (if o = .cancel then Status.cancelled else .scheduled)
        (.decision cid o) = .ok s' := by
  by_cases hcan : o = .cancel
  · rw [if_pos hcan]
    have hcomp : updateStatus s idc Status.cancelled (.decision cid o)
        = .ok { s with
            active := replaceCall s.active idc (applyDecision c o)
            pending := s.pending.filter (fun pr => pr.1 ≠ cid)
            resolved := cid :: s.resolved } := by
      simp only [updateStatus, hfind]
      rw [if_neg (show ¬(legalTransition c.status Status.cancelled = false) by
        rw [hst]; simp [legalTransition, Status.isTerminal])]
      rw [if_pos hst]
      rw [if_neg (show ¬(c.correlationId ≠ some cid) by rw [hcorr]; simp)]
      rw [if_neg (show ¬(o ≠ .cancel) by simp [hcan])]
    exact ⟨_, hcomp⟩
  · rw [if_neg hcan]
    have hcomp : updateStatus s idc Status.scheduled (.decision cid o)
        = .ok { s with
            active := replaceCall s.active idc (applyDecision c o)
            pending := s.pending.filter (fun pr => pr.1 ≠ cid)
            resolved := cid :: s.resolved } := by
      simp only [updateStatus, hfind]
      rw [if_neg (show ¬(legalTransition c.status Status.scheduled = false) by
        rw [hst]; simp [legalTransition])]
      rw [if_pos hst]
      rw [if_neg (show ¬(c.correlationId ≠ some cid) by rw [hcorr]; simp)]
      rw [if_neg hcan]
    exact ⟨_, hcomp⟩

/-- C3: the first `submitResponse` whose correlation id matches a pending
request succeeds and is delivered exactly once to `updateStatus`; the id
leaves the registry and is recorded as resolved, and in every later state
a `submitResponse` for the same id fails with `DuplicateResponseError` with
no state change and no further delivery. -/
theorem submitResponse_exactly_once {s : ManagerState} (hInv : Inv s)
    (cid : Nat) (idc : String) (o : Outcome) (hmem : (cid, idc) ∈ s.pending) :
    ∃ s' id', submitResponse s ⟨cid, o⟩ = .ok s'
      ∧ s'.deliveries = s.deliveries ++ [(id', cid, o)]
      ∧ (∀ pr ∈ s'.pending, pr.1 ≠ cid)
      ∧ cid ∈ s'.resolved
      ∧ ∀ s'', Relation.ReflTransGen Step s' s'' →
          (∀ o', submitResponse s'' ⟨cid, o'⟩ = .error (.duplicateResponse cid))
          ∧ s''.deliveries.filter (fun dv => dv.2.1 = cid)
              = s'.deliveries.filter (fun dv => dv.2.1 = cid) := by
  cases hfp : s.pending.find? (fun pr => pr.1 = cid) with
  | none =>
    exact absurd (List.find?_eq_none.mp hfp (cid, idc) hmem) (by simp)
  | some pr0 =>
    obtain ⟨p1, p2⟩ := pr0
    have hp1 : p1 = cid := by simpa using List.find?_some hfp
    subst hp1
    have hpmem : (p1, p2) ∈ s.pending := List.mem_of_find?_eq_some hfp
    obtain ⟨c, hcmem, hcid, hcst, hccorr⟩ := hInv.2.2.2.2.2 (p1, p2) hpmem
    have hfindA : s.active.find? (fun x => x.request.callId = p2) = some c := by
      have hbase := find?_eq_of_nodup_mem hInv.2.2.1 hcmem
      rw [hcid] at hbase
      exact hbase
    have hfindA' : ({ s with deliveries := s.deliveries ++ [(p2, p1, o)] }
        : ManagerState).active.find? (fun x => x.request.callId = p2) = some c := hfindA
    obtain ⟨s', hok⟩ := updateStatus_decision_succeeds o hfindA' hcst hccorr
    obtain ⟨_, _, _, _, _, _, _, _, hnext, hde, _, _, _, _⟩ := updateStatus_ok_shape hok
    obtain ⟨hpe, hre⟩ := updateStatus_ok_decision
      (by by_cases hcan : o = .cancel
          · rw [if_pos hcan]; exact Or.inr rfl
          · rw [if_neg hcan]; exact Or.inl rfl) hok
    have hsubmit : submitResponse s ⟨p1, o⟩ = .ok s' := by
      simp only [submitResponse, hfp]
      exact hok
    have hpend' : ∀ pr ∈ s'.pending, pr.1 ≠ p1 := by
      intro pr hpr
      rw [hpe] at hpr
      have := List.of_mem_filter hpr
      simpa using this
    have hres' : p1 ∈ s'.resolved := by
      rw [hre]
      exact List.mem_cons_self _ _
    have hRD : ResolvedDone p1 s' := by
      refine ⟨hres', hpend', ?_⟩
      rw [hnext]
      exact hInv.2.2.2.2.1 (p1, p2) hpmem
    refine ⟨s', p2, hsubmit, by rw [hde], hpend', hres', ?_⟩
    intro s'' hrt
    have hpersist : ResolvedDone p1 s''
        ∧ s''.deliveries.filter (fun dv => dv.2.1 = p1)
            = s'.deliveries.filter (fun dv => dv.2.1 = p1) := by
      induction hrt with
      | refl => exact ⟨hRD, rfl⟩
      | tail hr hstep ih =>
        obtain ⟨ihP, ihF⟩ := ih
        obtain ⟨P', F'⟩ := resolvedDone_step ihP hstep
        exact ⟨P', F'.trans ihF⟩
    obtain ⟨⟨hres'', hpend'', _⟩, hfilter⟩ := hpersist
    refine ⟨?_, hfilter⟩
    intro o'
    have hnone : s''.pending.find? (fun pr => pr.1 = p1) = none := by
      rw [List.find?_eq_none]
      intro pr hpr
      simpa using hpend'' pr hpr
    simp only [submitResponse, hnone]
    rw [if_pos hres'']

/-- Witness for `submitResponse_exactly_once` at the reachable two-call
state with a pending manager-allocated request. -/
theorem submitResponse_exactly_once_witness :
    Inv (dequeue dupState1)
    ∧ (0, "edit-1") ∈ (dequeue dupState1).pending
    ∧ ∃ s' id', submitResponse (dequeue dupState1) ⟨0, .proceedOnce⟩ = .ok s'
        ∧ s'.deliveries = (dequeue dupState1).deliveries ++ [(id', 0, .proceedOnce)]
        ∧ (∀ pr ∈ s'.pending, pr.1 ≠ 0)
        ∧ 0 ∈ s'.resolved
        ∧ ∀ s'', Relation.ReflTransGen Step s' s'' →
            (∀ o', submitResponse s'' ⟨0, o'⟩ = .error (.duplicateResponse 0))
            ∧ s''.deliveries.filter (fun dv => dv.2.1 = 0)
                = s'.deliveries.filter (fun dv => dv.2.1 = 0) := by
  have hInv : Inv (dequeue dupState1) := by
    refine ⟨?_, ?_, ?_, ?_, ?_, ?_⟩ <;> decide
  have hmem : ((0 : Nat), "edit-1") ∈ (dequeue dupState1).pending := by decide
  exact ⟨hInv, hmem,
    submitResponse_exactly_once hInv 0 "edit-1" .proceedOnce hmem⟩

/-- Any single manager operation preserves the invariant. -/
theorem inv_step {s s' : ManagerState} (hInv : Inv s) (h : Step s s') : Inv s' := by
  cases h with
  | enqueueStep _ reqs he => exact inv_enqueue hInv he
  | dequeueStep => exact inv_dequeue hInv
  | updateStep _ id t d hu => exact inv_update hInv hu
  | finalizeStep _ id hf => exact inv_finalize hInv hf
  | submitStep _ r hs => exact inv_submit hInv hs

/-- C4: cancelling an `AwaitingApproval` call invalidates its correlation
id: the cancellation succeeds, the call reports `Cancelled`, the id leaves
the channel registry, a response delivered afterwards for the invalidated
id fails (stale or duplicate) - a no-op, since a failing operation returns
no successor state - and in every state reachable from the cancellation
the call still reports `Cancelled`. -/
theorem cancel_invalidates_correlation {s : ManagerState} (hInv : Inv s)
    {c : ToolCall} (hcmem : c ∈ s.active) (hcst : c.status = .awaitingApproval)
    {cid : Nat} (hccorr : c.correlationId = some cid) (msg : String) :
    ∃ s', updateStatus s c.request.callId .cancelled (.reason msg) = .ok s'
      ∧ statusOf s' c.request.callId = some .cancelled
      ∧ (∀ pr ∈ s'.pending, pr.1 ≠ cid)
      ∧ (∀ o, ∃ e, submitResponse s' ⟨cid, o⟩ = .error e
          ∧ (e = .staleResponse cid ∨ e = .duplicateResponse cid))
      ∧ ∀ s'', Relation.ReflTransGen Step s' s'' →
          statusOf s'' c.request.callId = some .cancelled := by
  have hfind : s.active.find? (fun x => x.request.callId = c.request.callId) = some c :=
    find?_eq_of_nodup_mem hInv.2.2.1 hcmem
  have hcomp : updateStatus s c.request.callId .cancelled (.reason msg)
      = .ok { s with
          active := replaceCall s.active c.request.callId (toCancelled c msg)
          pending := s.pending.filter (fun pr => some pr.1 ≠ c.correlationId) } := by
    simp only [updateStatus, hfind]
    rw [if_neg (show ¬(legalTransition c.status Status.cancelled = false) by
      rw [hcst]; simp [legalTransition, Status.isTerminal])]
  have hst' : statusOf { s with
      active := replaceCall s.active c.request.callId (toCancelled c msg)
      pending := s.pending.filter (fun pr => some pr.1 ≠ c.correlationId) }
      c.request.callId = some .cancelled := by
    unfold statusOf
    simp only
    obtain ⟨l₁, l₂, hl, hx₁, _, hrepl⟩ :=
      replaceCall_decomp hInv.2.2.1 hfind (toCancelled c msg)
    rw [hrepl, List.find?_append]
    have h₁ : l₁.find? (fun x => x.request.callId = c.request.callId) = none := by
      rw [List.find?_eq_none]
      intro x hx
      exact fun hpx => (hx₁ x hx) (by simpa using hpx)
    rw [h₁]
    simp only [Option.none_or]
    rw [List.find?_cons, show (decide ((toCancelled c msg).request.callId
        = c.request.callId)) = true by simp [toCancelled]]
    rfl
  refine ⟨_, hcomp, hst', ?_, ?_, ?_⟩
  · intro pr hpr
    have := List.of_mem_filter hpr
    simp only [decide_eq_true_eq, hccorr] at this
    intro he
    exact this (by rw [he])
  · intro o
    have hnone : (s.pending.filter
        (fun pr => some pr.1 ≠ c.correlationId)).find? (fun pr => pr.1 = cid) = none := by
      rw [List.find?_eq_none]
      intro pr hpr hp
      have hq := List.of_mem_filter hpr
      simp only [decide_eq_true_eq, hccorr] at hq
      simp only [decide_eq_true_eq] at hp
      exact hq (by rw [hp])
    by_cases hres : cid ∈ ({ s with
        active := replaceCall s.active c.request.callId (toCancelled c msg)
        pending := s.pending.filter
          (fun pr => some pr.1 ≠ c.correlationId) } : ManagerState).resolved
    · refine ⟨.duplicateResponse cid, ?_, Or.inr rfl⟩
      simp only [submitResponse, hnone]
      rw [if_pos hres]
    · refine ⟨.staleResponse cid, ?_, Or.inl rfl⟩
      simp only [submitResponse, hnone]
      rw [if_neg hres]
  · intro s'' hrt
    have hInv' : Inv { s with
        active := replaceCall s.active c.request.callId (toCancelled c msg)
        pending := s.pending.filter (fun pr => some pr.1 ≠ c.correlationId) } :=
      inv_update hInv hcomp
    have : Inv s'' ∧ statusOf s'' c.request.callId = some .cancelled := by
      induction hrt with
      | refl => exact ⟨hInv', hst'⟩
      | tail hr hstep ih =>
        exact ⟨inv_step ih.1 hstep, terminal_statusOf_step ih.1 rfl ih.2 hstep⟩
    exact this.2

/-- Witness for `cancel_invalidates_correlation` at the reachable waiting
state: cancelling "edit-1" invalidates correlation id 0. -/
theorem cancel_invalidates_correlation_witness :
    ∃ s', updateStatus (dequeue dupState1) "edit-1" .cancelled (.reason "abort") = .ok s'
      ∧ statusOf s' "edit-1" = some .cancelled
      ∧ (∀ pr ∈ s'.pending, pr.1 ≠ 0)
      ∧ (∀ o, ∃ e, submitResponse s' ⟨0, o⟩ = .error e
          ∧ (e = .staleResponse 0 ∨ e = .duplicateResponse 0))
      ∧ ∀ s'', Relation.ReflTransGen Step s' s'' →
          statusOf s'' "edit-1" = some .cancelled := by
  have hInv : Inv (dequeue dupState1) := by
    refine ⟨?_, ?_, ?_, ?_, ?_, ?_⟩ <;> decide
  have hc : ∃ c ∈ (dequeue dupState1).active, c.request.callId = "edit-1"
      ∧ c.status = .awaitingApproval ∧ c.correlationId = some 0 := by decide
  obtain ⟨c, hcmem, hcid, hcst, hccorr⟩ := hc
  have hmain := cancel_invalidates_correlation hInv hcmem hcst hccorr "abort"
  rw [hcid] at hmain
  exact hmain

/-- A `ToolCallRequest` whose `callId` is found in the active list is found,
after `dequeue`, as its `dequeueOne` image at some allocator value `m ≥ n`,
and every confirmation request that image publishes is published by the
whole pass. -/
theorem dequeueList_find_dequeued {id : String} {c : ToolCall} :
    ∀ (l : List ToolCall) (n : Nat),
      l.find? (fun x => x.request.callId = id) = some c →
      ∃ m, n ≤ m
        ∧ (dequeueList l n).1.find? (fun x => x.request.callId = id)
            = some (dequeueOne c m).1
        ∧ ∀ q ∈ (dequeueOne c m).2.2.2, q ∈ (dequeueList l n).2.2.2 := by
  intro l
  induction l with
  | nil => intro n hfind; simp at hfind
  | cons d ds ih =>
    intro n hfind
    rw [List.find?_cons] at hfind
    simp only [dequeueList, List.find?_cons]
    have hid : (dequeueOne d n).1.request.callId = d.request.callId :=
      congrArg (·.callId) (dequeueOne_request d n)
    cases hd : decide (d.request.callId = id) with
    | true =>
      rw [hd] at hfind
      cases hfind
      refine ⟨n, le_refl n, ?_, ?_⟩
      · rw [show (decide ((dequeueOne c n).1.request.callId = id)) = true by
          rw [hid]; exact hd]
      · intro q hq
        exact List.mem_append.mpr (Or.inl hq)
    | false =>
      rw [hd] at hfind
      obtain ⟨m, hm, hf, hp⟩ := ih ((dequeueOne d n).2.1) hfind
      refine ⟨m, le_trans (dequeueOne_n_mono d n) hm, ?_, ?_⟩
      · rw [show (decide ((dequeueOne d n).1.request.callId = id)) = false by
          rw [hid]; exact hd]
        exact hf
      · intro q hq
        exact List.mem_append.mpr (Or.inr (hp q hq))

/-- `find?` by call id over a duplicate-free request batch returns the
member request itself. -/
theorem find?_req_of_nodup_mem {reqs : List ToolCallRequest} {r : ToolCallRequest}
    (hnd : (reqs.map (·.callId)).Nodup) (hr : r ∈ reqs) :
    reqs.find? (fun x => x.callId = r.callId) = some r := by
  induction reqs with
  | nil => simp at hr
  | cons d ds ih =>
    simp only [List.map_cons, List.nodup_cons] at hnd
    rcases List.mem_cons.mp hr with rfl | hr'
    · simp [List.find?_cons]
    · rw [List.find?_cons]
      have hne : d.callId ≠ r.callId := by
        intro he
        exact hnd.1 (he ▸ List.mem_map.mpr ⟨r, hr', rfl⟩)
      rw [show (decide (d.callId = r.callId)) = false by simp [hne]]
      exact ih hnd.2 hr'

/-- C6: for every valid batch of requests, `enqueue` followed by `dequeue`
leaves each call of the batch in exactly one of Scheduled, AwaitingApproval
or Error (the one dictated by its validation result and confirmation need),
never in Validating; a call entering AwaitingApproval gets a fresh
correlationId (at or above the allocator, distinct from every pending id),
a published `ConfirmationRequest`, and stored `confirmationDetails`. -/
theorem enqueue_dequeue_statuses {s s₁ : ManagerState} {reqs : List ToolCallRequest}
    {r : ToolCallRequest} (hInv : Inv s) (henq : enqueue s reqs = .ok s₁)
    (hr : r ∈ reqs) :
    ∃ c, (dequeue s₁).active.find? (fun x => x.request.callId = r.callId) = some c
      ∧ (c.status = .scheduled ∨ c.status = .awaitingApproval ∨ c.status = .error)
      ∧ c.status ≠ .validating
      ∧ c.status = (if r.validationError.isSome then Status.error
          else if r.needsConfirmation then Status.awaitingApproval
          else Status.scheduled)
      ∧ (c.status = .awaitingApproval →
          ∃ m, s.nextCorrelationId ≤ m
            ∧ (∀ pr ∈ s.pending, pr.1 ≠ m)
            ∧ c.correlationId = some m
            ∧ c.confirmationDetails = some r.details
            ∧ ({ correlationId := m, callId := r.callId, details := r.details }
                : ConfirmationRequest) ∈ (dequeue s₁).published) := by
  obtain ⟨_, _, _, _, h5, _⟩ := hInv
  unfold enqueue at henq
  split at henq
  case isFalse => exact absurd henq (by simp)
  case isTrue hcond =>
    injection henq with h
    subst h
    obtain ⟨hnd, hfree⟩ := hcond
    have hfindA : s.active.find? (fun x => x.request.callId = r.callId) = none := by
      rw [find?_none_iff_callId]
      intro hmem
      rcases List.mem_map.mp hmem with ⟨c, hc, hcid⟩
      exact (hfree r hr).1 c hc hcid
    have hfindB :
        (reqs.map fun q => ({ request := q, status := .validating
                              correlationId := none, confirmationDetails := none
                              outcome := none, resultDisplay := none
                              errorMsg := none } : ToolCall)).find?
            (fun x => x.request.callId = r.callId)
          = some { request := r, status := .validating
                   correlationId := none, confirmationDetails := none
                   outcome := none, resultDisplay := none, errorMsg := none } := by
      have h1 : reqs.find? (fun x => x.callId = r.callId) = some r :=
        find?_req_of_nodup_mem hnd hr
      calc (reqs.map fun q => ({ request := q, status := .validating
                                 correlationId := none, confirmationDetails := none
                                 outcome := none, resultDisplay := none
                                 errorMsg := none } : ToolCall)).find?
              (fun x => x.request.callId = r.callId)
          = (reqs.find? (fun x => x.callId = r.callId)).map
              fun q => ({ request := q, status := .validating
                          correlationId := none, confirmationDetails := none
                          outcome := none, resultDisplay := none
                          errorMsg := none } : ToolCall) := List.find?_map _ reqs
        _ = some { request := r, status := .validating
                   correlationId := none, confirmationDetails := none
                   outcome := none, resultDisplay := none, errorMsg := none } := by
            rw [h1]
            rfl
    have hfind₁ :
        (s.active ++ reqs.map fun q => ({ request := q, status := .validating
                                          correlationId := none
                                          confirmationDetails := none
                                          outcome := none, resultDisplay := none
                                          errorMsg := none } : ToolCall)).find?
            (fun x => x.request.callId = r.callId)
          = some { request := r, status := .validating
                   correlationId := none, confirmationDetails := none
                   outcome := none, resultDisplay := none, errorMsg := none } := by
      rw [List.find?_append, hfindA, hfindB]
      rfl
    obtain ⟨m, hm, hfind₂, hpub⟩ :=
      dequeueList_find_dequeued _ s.nextCorrelationId hfind₁
    rcases dequeueOne_spec { request := r, status := .validating
                             correlationId := none, confirmationDetails := none
                             outcome := none, resultDisplay := none
                             errorMsg := none } m with
      ⟨hne, _⟩ | ⟨e, _, hve, heq⟩ | ⟨_, hve, hnce, heq⟩ | ⟨_, hve, hnce, heq⟩
    · exact absurd rfl hne
    · rw [heq] at hfind₂
      refine ⟨_, hfind₂, Or.inr (Or.inr rfl), by intro h; simp at h, ?_, ?_⟩
      · rw [show r.validationError = some e from hve]
        rfl
      · intro hst
        simp at hst
    · rw [heq] at hfind₂ hpub
      refine ⟨_, hfind₂, Or.inr (Or.inl rfl), by intro h; simp at h, ?_, ?_⟩
      · rw [show r.validationError = none from hve,
           show r.needsConfirmation = true from hnce]
        rfl
      · intro _
        refine ⟨m, hm, ?_, rfl, rfl, ?_⟩
        · intro pr hpr hprm
          exact absurd (hprm ▸ h5 pr hpr) (by omega)
        · exact List.mem_append.mpr (Or.inr (hpub _ (List.mem_singleton.mpr rfl)))
    · rw [heq] at hfind₂
      refine ⟨_, hfind₂, Or.inl rfl, by intro h; simp at h, ?_, ?_⟩
      · rw [show r.validationError = none from hve,
           show r.needsConfirmation = false from hnce]
        rfl
      · intro hst
        simp at hst

/-- A confirmation-needing request used to witness the enqueue/dequeue
status theorem. -/
def wit6Req : ToolCallRequest :=
  { callId := "w6-1", toolName := "edit"
    validationError := none, needsConfirmation := true, details := editDetails }

/-- The state produced by enqueuing `wit6Req` into the empty session. -/
def wit6State : ManagerState :=
  match enqueue initialState [wit6Req] with
  | .ok t => t
  | .error _ => initialState

/-- Witness for `enqueue_dequeue_statuses` on a fresh singleton batch. -/
theorem enqueue_dequeue_statuses_witness :
    ∃ c, (dequeue wit6State).active.find?
          (fun x => x.request.callId = wit6Req.callId) = some c
      ∧ (c.status = .scheduled ∨ c.status = .awaitingApproval ∨ c.status = .error)
      ∧ c.status ≠ .validating
      ∧ c.status = (if wit6Req.validationError.isSome then Status.error
          else if wit6Req.needsConfirmation then Status.awaitingApproval
          else Status.scheduled)
      ∧ (c.status = .awaitingApproval →
          ∃ m, initialState.nextCorrelationId ≤ m
            ∧ (∀ pr ∈ initialState.pending, pr.1 ≠ m)
            ∧ c.correlationId = some m
            ∧ c.confirmationDetails = some wit6Req.details
            ∧ ({ correlationId := m, callId := wit6Req.callId
                 details := wit6Req.details }
                : ConfirmationRequest) ∈ (dequeue wit6State).published) :=
  enqueue_dequeue_statuses (by refine ⟨?_, ?_, ?_, ?_, ?_, ?_⟩ <;> decide)
    (by rfl) (List.mem_singleton.mpr rfl)

namespace UpdateConfig

set_option maxRecDepth 8000

/-- The guarded content pipeline of update_config.py.  The script's first
lines-loop builds `new_lines`, which is never written back; the file
transformation is exactly the four guarded edits applied to `content`
(re-read from disk) and written at the end.  Strings are modelled as
`List Char`; `str.replace(old, new, 1)` for a nonempty `old` is
`replaceFirst`, `str.replace(old, new)` is `replaceAll`. -/
def replaceFirst (p r : List Char) : List Char → List Char
  | [] => []
  | ch :: t =>
    if p <+: (ch :: t) then r ++ (ch :: t).drop p.length
    else ch :: replaceFirst p r t

/-- Python `str.replace(old, new)` for nonempty `old`: left-to-right,
non-overlapping, resuming after each replacement. -/
def replaceAll (p r : List Char) : List Char → List Char
  | [] => []
  | ch :: t =>
    if p <+: (ch :: t) then r ++ replaceAll p r (t.drop (p.length - 1))
    else ch :: replaceAll p r t
  termination_by x => x.length
  decreasing_by
  · simp only [List.length_drop, List.length_cons]
    omega
  · simp only [List.length_cons]
    omega

/-- Python `str.find(sub)` for nonempty `sub`, returned as the split around
the first occurrence: `firstSplit p x = some (a, b)` iff `x = a ++ p ++ b`
with `a` shortest. -/
def firstSplit (p : List Char) : List Char → Option (List Char × List Char)
  | [] => none
  | ch :: t =>
    if p <+: (ch :: t) then some ([], (ch :: t).drop p.length)
    else (firstSplit p t).map (fun pr => (ch :: pr.1, pr.2))

/-- 'searchTimeout?: number;' (interface pattern, step 1). -/
def s1pat : List Char := "searchTimeout?: number;".toList

/-- The step-1 replacement 'searchTimeout?: number;\n    ignorePatterns?: string[];'. -/
def s1rep : List Char := "searchTimeout?: number;\n    ignorePatterns?: string[];".toList

/-- The step-1 guard substring 'ignorePatterns?: string[];'. -/
def s1guard : List Char := "ignorePatterns?: string[];".toList

/-- 'searchTimeout: number;' (class-field pattern, step 2). -/
def s2pat : List Char := "searchTimeout: number;".toList

/-- The step-2 replacement 'searchTimeout: number;\n    ignorePatterns: string[];'. -/
def s2rep : List Char := "searchTimeout: number;\n    ignorePatterns: string[];".toList

/-- The step-2 guard substring 'ignorePatterns: string[];'. -/
def s2guard : List Char := "ignorePatterns: string[];".toList

/-- The step-3 guard substring. -/
def s3guard : List Char := "ignorePatterns: params.fileFiltering?.ignorePatterns ?? [],".toList

/-- The step-3 search snippet 'DEFAULT_FILE_FILTERING_OPTIONS.searchTimeout ??'. -/
def s3pat : List Char := "DEFAULT_FILE_FILTERING_OPTIONS.searchTimeout ??".toList

/-- The text step 3 inserts after the comma following the snippet. -/
def s3ins : List Char :=
  "\n      ignorePatterns: params.fileFiltering?.ignorePatterns ?? [],".toList

/-- The step-4 guard substring 'getCustomExcludes(): string[]'. -/
def s4guard : List Char := "getCustomExcludes(): string[]".toList

/-- The step-4 pattern 'getFileExclusions(): FileExclusions \x7b'. -/
def s4pat : List Char := "getFileExclusions(): FileExclusions \x7b".toList

/-- The step-4 replacement: the getCustomExcludes method body followed by the
original pattern. -/
def s4rep : List Char :=
  "getCustomExcludes(): string[] \x7b\n    return this.fileFiltering.ignorePatterns;\n  \x7d\n\n  getFileExclusions(): FileExclusions \x7b".toList

/-- Step 1: `if 'ignorePatterns?: string[];' not in content: content =
content.replace('searchTimeout?: number;', ..., 1)`. -/
def step1 (x : List Char) : List Char :=
  if s1guard <:+: x then x else replaceFirst s1pat s1rep x

/-- Step 2: the class-field insertion, guarded by 'ignorePatterns: string[];'. -/
def step2 (x : List Char) : List Char :=
  if s2guard <:+: x then x else replaceFirst s2pat s2rep x

/-- Step 3: `idx = content.find(snippet); comma_idx = content.find(',', idx);
content = content[:comma_idx+1] + ins + content[comma_idx+1:]`.  The snippet
`s3pat` contains no comma, so `find(',', idx)` — which scans from the start
of the snippet occurrence — lands on the first comma after that occurrence;
this is the `firstSplit [','] b` below. -/
def step3 (x : List Char) : List Char :=
  if s3guard <:+: x then x
  else
    match firstSplit s3pat x with
    | none => x
    | some (a, b) =>
      match firstSplit [','] b with
      | none => x
      | some (c, d) => a ++ s3pat ++ c ++ [','] ++ s3ins ++ d

/-- Step 4: the getCustomExcludes method insertion, an unbounded
`str.replace`, guarded by 'getCustomExcludes(): string[]'. -/
def step4 (x : List Char) : List Char :=
  if s4guard <:+: x then x else replaceAll s4pat s4rep x

/-- The whole file transformation performed by update_config.py. -/
def updateConfigTransform (x : List Char) : List Char :=
  step4 (step3 (step2 (step1 x)))

/-- Splitting a two-sided append around a designated middle segment: the
middle lands inside the left part, inside the right part, or straddles the
junction. -/
theorem append3_eq_append2 {A M B L1 L2 : List Char}
    (h : A ++ M ++ B = L1 ++ L2) :
    (∃ B1, L1 = A ++ M ++ B1 ∧ B = B1 ++ L2)
    ∨ (∃ A2, L2 = A2 ++ M ++ B ∧ A = L1 ++ A2)
    ∨ (∃ k, 0 < k ∧ k < M.length
        ∧ L1 = A ++ M.take k ∧ L2 = M.drop k ++ B) := by
  obtain ⟨n, hn⟩ : ∃ n, L1.length = n := ⟨_, rfl⟩
  have hL1 : L1 = (A ++ M ++ B).take n := by
    rw [h, ← hn, List.take_left]
  by_cases h1 : n ≤ A.length
  · have htake : L1 = A.take n := by
      rw [hL1, List.append_assoc, List.take_append_eq_append_take,
        show n - A.length = 0 by omega, List.take_zero, List.append_nil]
    have hA : A = L1 ++ A.drop n := by
      conv_lhs => rw [← List.take_append_drop n A]
      rw [htake]
    refine Or.inr (Or.inl ⟨A.drop n, ?_, hA⟩)
    have h2 := h
    rw [hA] at h2
    simp only [List.append_assoc] at h2
    have h4 := (List.append_cancel_left h2).symm
    rw [h4, List.append_assoc]
  · by_cases h2 : A.length + M.length ≤ n
    · have hL1' : L1 = A ++ M ++ B.take (n - A.length - M.length) := by
        rw [hL1, List.append_assoc, List.take_append_eq_append_take,
          List.take_of_length_le (by omega), List.take_append_eq_append_take,
          List.take_of_length_le (by omega), List.append_assoc]
      refine Or.inl ⟨B.take (n - A.length - M.length), hL1', ?_⟩
      have h3 := h
      rw [hL1'] at h3
      simp only [List.append_assoc] at h3
      exact List.append_cancel_left (List.append_cancel_left h3)
    · have hk2 : n - A.length < M.length := by omega
      have hL1' : L1 = A ++ M.take (n - A.length) := by
        rw [hL1, List.append_assoc, List.take_append_eq_append_take,
          List.take_of_length_le (by omega), List.take_append_eq_append_take,
          show n - A.length - M.length = 0 by omega, List.take_zero,
          List.append_nil]
      refine Or.inr (Or.inr ⟨n - A.length, by omega, hk2, hL1', ?_⟩)
      have h3 := h
      conv_lhs at h3 => rw [← List.take_append_drop (n - A.length) M]
      rw [hL1'] at h3
      simp only [List.append_assoc] at h3
      exact (List.append_cancel_left (List.append_cancel_left h3)).symm

/-- An infix of an append is an infix of a part or straddles the junction. -/
theorem infix_append_cases {g L1 L2 : List Char} (h : g <:+: L1 ++ L2) :
    g <:+: L1 ∨ g <:+: L2
      ∨ ∃ k, 0 < k ∧ k < g.length ∧ (g.take k) <:+ L1 ∧ (g.drop k) <+: L2 := by
  obtain ⟨s, t, hst⟩ := h
  rcases append3_eq_append2 hst with ⟨B1, hB1, _⟩ | ⟨A2, hA2, _⟩ |
    ⟨k, hk0, hkl, hL1, hL2⟩
  · exact Or.inl ⟨s, B1, hB1.symm⟩
  · exact Or.inr (Or.inl ⟨A2, t, hA2.symm⟩)
  · exact Or.inr (Or.inr ⟨k, hk0, hkl, ⟨s, hL1.symm⟩, ⟨t, by rw [← hL2]⟩⟩)

/-- An infix of a cons cell is a prefix of it or an infix of the tail. -/
theorem infix_cons_elim {g : List Char} {ch : Char} {t : List Char}
    (h : g <:+: ch :: t) : g <+: ch :: t ∨ g <:+: t := by
  obtain ⟨s, u, hsu⟩ := h
  cases s with
  | nil => exact Or.inl ⟨u, by simpa using hsu⟩
  | cons c s' =>
    simp only [List.cons_append, List.cons.injEq] at hsu
    exact Or.inr ⟨s', u, hsu.2⟩

/-- A nonempty pattern is no infix of the empty string. -/
theorem not_infix_nil {p : List Char} (hp : p ≠ []) : ¬ p <:+: ([] : List Char) := by
  intro h
  obtain ⟨s, u, hsu⟩ := h
  have h2 := hsu
  simp only [List.append_eq_nil] at h2
  exact hp h2.1.2

/-- `replaceFirst` without a match is the identity. -/
theorem replaceFirst_no_match {p r x : List Char} (h : ¬ p <:+: x) :
    replaceFirst p r x = x := by
  induction x with
  | nil => rfl
  | cons ch t ih =>
    simp only [replaceFirst]
    rw [if_neg (fun hp => h hp.isInfix),
      ih (fun hi => h (hi.trans (List.suffix_cons ch t).isInfix))]

/-- A match turns `replaceFirst` into a one-point rewrite around some
decomposition of the string. -/
theorem replaceFirst_decomp {p r x : List Char} (hp : p ≠ []) (h : p <:+: x) :
    ∃ A B, x = A ++ p ++ B ∧ replaceFirst p r x = A ++ r ++ B := by
  induction x with
  | nil => exact absurd h (not_infix_nil hp)
  | cons ch t ih =>
    by_cases hpre : p <+: ch :: t
    · obtain ⟨B, hB⟩ := hpre
      refine ⟨[], B, by simp [← hB], ?_⟩
      simp only [replaceFirst]
      rw [if_pos ⟨B, hB⟩, show (ch :: t).drop p.length = B by
        rw [← hB, List.drop_left]]
      simp
    · have ht : p <:+: t := by
        rcases infix_cons_elim h with h1 | h1
        · exact absurd h1 hpre
        · exact h1
      obtain ⟨A, B, hx, hr⟩ := ih ht
      refine ⟨ch :: A, B, by simp [hx], ?_⟩
      simp only [replaceFirst]
      rw [if_neg hpre, hr]
      simp

/-- `firstSplit` really splits the string around the pattern. -/
theorem firstSplit_some {p x a b : List Char}
    (h : firstSplit p x = some (a, b)) : x = a ++ p ++ b := by
  induction x generalizing a b with
  | nil => simp [firstSplit] at h
  | cons ch t ih =>
    simp only [firstSplit] at h
    split at h
    · next hpre =>
      obtain ⟨B, hB⟩ := hpre
      cases h
      rw [show (ch :: t).drop p.length = B by rw [← hB, List.drop_left]]
      simp [← hB]
    · next hpre =>
      cases hft : firstSplit p t with
      | none => rw [hft] at h; simp at h
      | some pr =>
        obtain ⟨a', b'⟩ := pr
        rw [hft] at h
        simp only [Option.map_some'] at h
        cases h
        simp [ih hft]

/-- `firstSplit` fails exactly on pattern-free strings. -/
theorem firstSplit_none {p x : List Char} (hp : p ≠ [])
    (h : firstSplit p x = none) : ¬ p <:+: x := by
  induction x with
  | nil => exact not_infix_nil hp
  | cons ch t ih =>
    simp only [firstSplit] at h
    split at h
    · exact absurd h (by simp)
    · next hpre =>
      intro hi
      rcases infix_cons_elim hi with h1 | h1
      · exact hpre h1
      · exact ih (Option.map_eq_none'.mp h) h1

/-- `firstSplit` finds the leftmost occurrence. -/
theorem firstSplit_min {p x a b A B : List Char}
    (h : firstSplit p x = some (a, b)) (hx : x = A ++ p ++ B) :
    a.length ≤ A.length := by
  induction x generalizing a b A B with
  | nil => simp [firstSplit] at h
  | cons ch t ih =>
    simp only [firstSplit] at h
    split at h
    · cases h
      simp
    · next hpre =>
      cases hft : firstSplit p t with
      | none => rw [hft] at h; simp at h
      | some pr =>
        obtain ⟨a', b'⟩ := pr
        rw [hft] at h
        simp only [Option.map_some'] at h
        cases h
        cases A with
        | nil =>
          exact absurd ⟨B, by simpa using hx.symm⟩ hpre
        | cons cA A' =>
          simp only [List.cons_append, List.append_assoc, List.cons.injEq] at hx
          have := ih hft (by rw [hx.2, List.append_assoc])
          simp only [List.length_cons]
          omega

/-- Inserting `ins` at a junction cannot create an occurrence of `g` when no
part of `g` is compatible with `ins` at either junction edge. -/
theorem insert_no_create {g u v ins : List Char}
    (hno : ¬ g <:+: u ++ v)
    (c1 : ¬ g <:+: ins)
    (c2 : ∀ k < g.length, 0 < k → ¬ ((g.drop k) <+: ins))
    (c3 : ∀ k < g.length, 0 < k → k + ins.length < g.length → ¬ (ins <+: g.drop k))
    (c4 : ∀ k < g.length, 0 < k → ¬ ((g.take k) <:+ ins)) :
    ¬ g <:+: u ++ ins ++ v := by
  intro h
  rw [List.append_assoc] at h
  rcases infix_append_cases h with h1 | h1 | ⟨k, hk0, hkl, htk, hdk⟩
  · exact hno (h1.trans (List.prefix_append u v).isInfix)
  · rcases infix_append_cases h1 with h2 | h2 | ⟨k, hk0, hkl, htk, hdk⟩
    · exact c1 h2
    · exact hno (h2.trans (List.suffix_append u v).isInfix)
    · exact c4 k hkl hk0 htk
  · have hins : ins <+: ins ++ v := ⟨v, rfl⟩
    rcases List.prefix_or_prefix_of_prefix hdk hins with h2 | h2
    · exact c2 k hkl hk0 h2
    · by_cases h3 : k + ins.length < g.length
      · exact c3 k hkl hk0 h3 h2
      · have hlen : ins.length ≤ (g.drop k).length := h2.length_le
        have heq : ins = g.drop k := h2.eq_of_length (by
          simp only [List.length_drop] at hlen ⊢
          omega)
        exact c2 k hkl hk0 (by rw [← heq])

/-- Inserting `ins` right after a `q`-junction preserves every occurrence of
`g` when `g` cannot straddle the end of `q`. -/
theorem insert_preserve {g q A B ins : List Char}
    (hg : g <:+: A ++ q ++ B)
    (d1 : ∀ k < g.length, 0 < k → ¬ ((g.take k) <:+ q))
    (d2 : ∀ k < g.length, 0 < k → ¬ (q <:+ (g.take k))) :
    g <:+: A ++ q ++ ins ++ B := by
  have hg' : g <:+: (A ++ q) ++ B := hg
  rcases infix_append_cases hg' with h1 | h1 | ⟨k, hk0, hkl, htk, hdk⟩
  · have h2 : g <:+: (A ++ q) ++ (ins ++ B) :=
      h1.trans (List.prefix_append _ _).isInfix
    simpa [List.append_assoc] using h2
  · have h2 : g <:+: (A ++ q ++ ins) ++ B :=
      h1.trans (List.suffix_append _ _).isInfix
    exact h2
  · exfalso
    have hq : q <:+ A ++ q := ⟨A, rfl⟩
    rcases List.suffix_or_suffix_of_suffix htk hq with h2 | h2
    · exact d1 k hkl hk0 h2
    · exact d2 k hkl hk0 h2

/-- A match at the head of a cons cell lets the tail-drop be rewritten. -/
theorem cons_drop_eq {p : List Char} (hp : p ≠ []) (ch : Char) (t : List Char) :
    (ch :: t).drop p.length = t.drop (p.length - 1) := by
  cases p with
  | nil => exact absurd rfl hp
  | cons c q => simp

/-- A prefix match splits the string. -/
theorem prefix_split {p x : List Char} (hpre : p <+: x) :
    x = p ++ x.drop p.length := by
  obtain ⟨s, hs⟩ := hpre
  rw [← hs, List.drop_left]

/-- `replaceAll` without a match is the identity. -/
theorem replaceAll_no_match {p r x : List Char} (h : ¬ p <:+: x) :
    replaceAll p r x = x := by
  induction x with
  | nil => simp [replaceAll]
  | cons ch t ih =>
    rw [replaceAll, if_neg (fun hp => h hp.isInfix),
      ih (fun hi => h (hi.trans (List.suffix_cons ch t).isInfix))]

/-- A match makes the replacement text an infix of the `replaceAll` output. -/
theorem replaceAll_decomp {p r x : List Char} (hp : p ≠ []) (h : p <:+: x) :
    ∃ A B, replaceAll p r x = A ++ r ++ B := by
  induction x with
  | nil => exact absurd h (not_infix_nil hp)
  | cons ch t ih =>
    by_cases hpre : p <+: ch :: t
    · exact ⟨[], replaceAll p r (t.drop (p.length - 1)), by
        rw [replaceAll, if_pos hpre]; simp⟩
    · have ht : p <:+: t := by
        rcases infix_cons_elim h with h1 | h1
        · exact absurd h1 hpre
        · exact h1
      obtain ⟨A, B, hAB⟩ := ih ht
      exact ⟨ch :: A, B, by rw [replaceAll, if_neg hpre, hAB]; simp⟩

/-- A character absent from the replacement text cannot be introduced by
`replaceAll`. -/
theorem replaceAll_mem_back {p r : List Char} {c : Char} (hc : c ∉ r) :
    ∀ x, c ∈ replaceAll p r x → c ∈ x := by
  have key : ∀ (n : Nat) (x : List Char), x.length ≤ n →
      c ∈ replaceAll p r x → c ∈ x := by
    intro n
    induction n with
    | zero =>
      intro x hx h
      have hnil : x = [] := List.length_eq_zero.mp (by omega)
      subst hnil
      simpa [replaceAll] using h
    | succ n ih =>
      intro x hx h
      cases x with
      | nil => simpa [replaceAll] using h
      | cons ch t =>
        by_cases hpre : p <+: ch :: t
        · rw [replaceAll, if_pos hpre] at h
          rcases List.mem_append.mp h with h1 | h1
          · exact absurd h1 hc
          · have hlen : (t.drop (p.length - 1)).length ≤ n := by
              have := List.length_drop (p.length - 1) t
              simp only [List.length_cons] at hx
              omega
            exact List.mem_cons_of_mem ch (List.mem_of_mem_drop (ih _ hlen h1))
        · rw [replaceAll, if_neg hpre] at h
          rcases List.mem_cons.mp h with h1 | h1
          · exact h1 ▸ List.mem_cons_self ch t
          · have hlen : t.length ≤ n := by
              simp only [List.length_cons] at hx
              omega
            exact List.mem_cons_of_mem ch (ih _ hlen h1)
  exact fun x => key x.length x (le_refl _)

/-- A nonempty suffix of `g` that prefixes the `replaceAll` output already
prefixed the input, provided no such suffix is prefix-compatible with the
replacement text. -/
theorem ra_prefix_back {g p r : List Char}
    (f3 : ∀ k < g.length, ¬ ((g.drop k) <+: r))
    (f4 : ∀ k < g.length, ¬ (r <+: (g.drop k))) :
    ∀ x k, k < g.length → (g.drop k) <+: replaceAll p r x → (g.drop k) <+: x := by
  intro x
  induction x with
  | nil =>
    intro k _ h
    simpa [replaceAll] using h
  | cons ch t ih =>
    intro k hk h
    by_cases hpre : p <+: ch :: t
    · rw [replaceAll, if_pos hpre] at h
      exfalso
      have hr : r <+: r ++ replaceAll p r (t.drop (p.length - 1)) := ⟨_, rfl⟩
      rcases List.prefix_or_prefix_of_prefix h hr with h2 | h2
      · exact f3 k hk h2
      · exact f4 k hk h2
    · rw [replaceAll, if_neg hpre] at h
      rw [List.drop_eq_getElem_cons hk] at h ⊢
      rw [List.cons_prefix_cons] at h ⊢
      refine ⟨h.1, ?_⟩
      by_cases hk1 : k + 1 < g.length
      · exact ih (k + 1) hk1 h.2
      · rw [List.drop_eq_nil_of_le (by omega)]
        exact ⟨t, rfl⟩

/-- A nonempty proper suffix of `g` that prefixes the input still prefixes
the `replaceAll` output, provided no such suffix is prefix-compatible with
the pattern. -/
theorem ra_prefix_fwd {g p r : List Char}
    (g2a : ∀ k < g.length, ¬ (p <+: (g.drop k)))
    (g2b : ∀ k < g.length, 0 < k → ¬ ((g.drop k) <+: p)) :
    ∀ x k, 0 < k → k < g.length → (g.drop k) <+: x →
      (g.drop k) <+: replaceAll p r x := by
  intro x
  induction x with
  | nil =>
    intro k _ _ h
    simpa [replaceAll] using h
  | cons ch t ih =>
    intro k hk0 hk h
    by_cases hpre : p <+: ch :: t
    · exfalso
      rcases List.prefix_or_prefix_of_prefix h hpre with h2 | h2
      · exact g2b k hk hk0 h2
      · exact g2a k hk h2
    · rw [replaceAll, if_neg hpre]
      rw [List.drop_eq_getElem_cons hk] at h ⊢
      rw [List.cons_prefix_cons] at h ⊢
      refine ⟨h.1, ?_⟩
      by_cases hk1 : k + 1 < g.length
      · exact ih (k + 1) (by omega) hk1 h.2
      · rw [List.drop_eq_nil_of_le (by omega)]
        exact ⟨replaceAll p r t, rfl⟩

/-- `replaceAll` cannot create an occurrence of `g` when no part of `g` is
compatible with the replacement text at any junction. -/
theorem ra_no_create {g p r : List Char} (hg : g ≠ []) (hp : p ≠ [])
    (f1 : ¬ g <:+: r)
    (f2 : ∀ k < g.length, 0 < k → ¬ ((g.take k) <:+ r))
    (f3 : ∀ k < g.length, ¬ ((g.drop k) <+: r))
    (f4 : ∀ k < g.length, ¬ (r <+: (g.drop k))) :
    ∀ x, g <:+: replaceAll p r x → g <:+: x := by
  have key : ∀ (n : Nat) (x : List Char), x.length ≤ n →
      g <:+: replaceAll p r x → g <:+: x := by
    intro n
    induction n with
    | zero =>
      intro x hx h
      have hnil : x = [] := List.length_eq_zero.mp (by omega)
      subst hnil
      simpa [replaceAll] using h
    | succ n ih =>
      intro x hx h
      cases x with
      | nil => simpa [replaceAll] using h
      | cons ch t =>
        by_cases hpre : p <+: ch :: t
        · rw [replaceAll, if_pos hpre] at h
          rcases infix_append_cases h with h1 | h1 | ⟨k, hk0, hkl, htk, _⟩
          · exact absurd h1 f1
          · have hlen : (t.drop (p.length - 1)).length ≤ n := by
              have := List.length_drop (p.length - 1) t
              simp only [List.length_cons] at hx
              omega
            have h2 := ih _ hlen h1
            have h3 : ch :: t = p ++ (ch :: t).drop p.length := prefix_split hpre
            rw [cons_drop_eq hp] at h3
            rw [h3]
            exact h2.trans (List.suffix_append p _).isInfix
          · exact absurd htk (f2 k hkl hk0)
        · rw [replaceAll, if_neg hpre] at h
          rcases infix_cons_elim h with h1 | h1
          · cases g with
            | nil => exact absurd rfl hg
            | cons cg tg =>
              rw [List.cons_prefix_cons] at h1
              by_cases h2 : 1 < (cg :: tg).length
              · have h4 : (cg :: tg).drop 1 <+: replaceAll p r t := by
                  simpa using h1.2
                have h3 : tg <+: t := by
                  simpa using ra_prefix_back f3 f4 t 1 h2 h4
                exact (List.cons_prefix_cons.mpr ⟨h1.1, h3⟩).isInfix
              · have h3 : tg = [] := by
                  simp only [List.length_cons] at h2
                  have : tg.length = 0 := by omega
                  exact List.length_eq_zero.mp this
                subst h3
                exact (List.cons_prefix_cons.mpr ⟨h1.1, ⟨t, rfl⟩⟩).isInfix
          · have hlen : t.length ≤ n := by
              simp only [List.length_cons] at hx
              omega
            exact (ih _ hlen h1).trans (List.suffix_cons ch t).isInfix
  exact fun x => key x.length x (le_refl _)

/-- `replaceAll` preserves every occurrence of `g` when `g` cannot straddle
a pattern junction. -/
theorem ra_preserve {g p r : List Char} (hp : p ≠ [])
    (hpr : p <:+: r)
    (e1 : ∀ k < g.length, 0 < k → ¬ ((g.take k) <:+ p))
    (g2a : ∀ k < g.length, ¬ (p <+: (g.drop k)))
    (g2b : ∀ k < g.length, 0 < k → ¬ ((g.drop k) <+: p)) :
    ∀ x, g <:+: x → g <:+: replaceAll p r x := by
  have key : ∀ (n : Nat) (x : List Char), x.length ≤ n →
      g <:+: x → g <:+: replaceAll p r x := by
    intro n
    induction n with
    | zero =>
      intro x hx h
      have hnil : x = [] := List.length_eq_zero.mp (by omega)
      subst hnil
      simpa [replaceAll] using h
    | succ n ih =>
      intro x hx h
      cases x with
      | nil => simpa [replaceAll] using h
      | cons ch t =>
        by_cases hpre : p <+: ch :: t
        · rw [replaceAll, if_pos hpre]
          have h3 : ch :: t = p ++ t.drop (p.length - 1) := by
            have := prefix_split hpre
            rwa [cons_drop_eq hp] at this
          rw [h3] at h
          rcases infix_append_cases h with h1 | h1 | ⟨k, hk0, hkl, htk, _⟩
          · exact (h1.trans hpr).trans (List.prefix_append r _).isInfix
          · have hlen : (t.drop (p.length - 1)).length ≤ n := by
              have := List.length_drop (p.length - 1) t
              simp only [List.length_cons] at hx
              omega
            exact (ih _ hlen h1).trans (List.suffix_append r _).isInfix
          · exact absurd htk (e1 k hkl hk0)
        · rw [replaceAll, if_neg hpre]
          rcases infix_cons_elim h with h1 | h1
          · cases g with
            | nil => exact ⟨[], ch :: replaceAll p r t, by simp⟩
            | cons cg tg =>
              rw [List.cons_prefix_cons] at h1
              by_cases h2 : 1 < (cg :: tg).length
              · have h4 : (cg :: tg).drop 1 <+: t := by
                  simpa using h1.2
                have h5 : (cg :: tg).drop 1 <+: replaceAll p r t :=
                  ra_prefix_fwd g2a g2b t 1 (by omega) h2 h4
                have h3 : tg <+: replaceAll p r t := by
                  simpa using h5
                exact (List.cons_prefix_cons.mpr ⟨h1.1, h3⟩).isInfix
              · have h3 : tg = [] := by
                  simp only [List.length_cons] at h2
                  have : tg.length = 0 := by omega
                  exact List.length_eq_zero.mp this
                subst h3
                exact (List.cons_prefix_cons.mpr
                  ⟨h1.1, ⟨replaceAll p r t, rfl⟩⟩).isInfix
          · have hlen : t.length ≤ n := by
              simp only [List.length_cons] at hx
              omega
            exact ((ih _ hlen h1).trans (List.suffix_cons ch _).isInfix)
  exact fun x => key x.length x (le_refl _)

/-- Somewhere in `x` the segment `q` occurs with a comma after it; exactly
the situation in which step 3 can still fire. -/
def commaAfter (q x : List Char) : Prop :=
  ∃ s w u, x = s ++ (q ++ (w ++ ',' :: u))

/-- A nonempty proper suffix of `q` continuing into a comma and prefixing a
`replaceAll` output forces the same shape in the input. -/
theorem ra_comp_back {q p r : List Char} (hp : p ≠ [])
    (b3 : ∀ k < q.length, 0 < k → ¬ ((q.drop k) <+: r))
    (b4 : ∀ k < q.length, 0 < k → ¬ (r <+: (q.drop k)))
    (hc : (',' : Char) ∉ r) :
    ∀ (n : Nat) (x : List Char), x.length ≤ n → ∀ k w u, 0 < k → k < q.length →
      q.drop k ++ (w ++ ',' :: u) = replaceAll p r x →
      ∃ w₂ u₂, x = q.drop k ++ (w₂ ++ ',' :: u₂) := by
  intro n
  induction n with
  | zero =>
    intro x hx k w u hk0 hk heq
    have hnil : x = [] := List.length_eq_zero.mp (by omega)
    subst hnil
    rw [show replaceAll p r [] = [] from by simp [replaceAll]] at heq
    simp at heq
  | succ n ih =>
    intro x hx k w u hk0 hk heq
    cases x with
    | nil =>
      rw [show replaceAll p r [] = [] from by simp [replaceAll]] at heq
      simp at heq
    | cons ch t =>
      by_cases hpre : p <+: ch :: t
      · rw [replaceAll, if_pos hpre] at heq
        exfalso
        have h1 : q.drop k <+: r ++ replaceAll p r (t.drop (p.length - 1)) :=
          ⟨w ++ ',' :: u, heq⟩
        have h2 : r <+: r ++ replaceAll p r (t.drop (p.length - 1)) := ⟨_, rfl⟩
        rcases List.prefix_or_prefix_of_prefix h1 h2 with h3 | h3
        · exact b3 k hk hk0 h3
        · exact b4 k hk hk0 h3
      · rw [replaceAll, if_neg hpre] at heq
        rw [List.drop_eq_getElem_cons hk] at heq
        simp only [List.cons_append, List.cons.injEq] at heq
        obtain ⟨hch, heq2⟩ := heq
        by_cases hk1 : k + 1 < q.length
        · have hlen : t.length ≤ n := by
            simp only [List.length_cons] at hx
            omega
          obtain ⟨w₂, u₂, ht⟩ := ih t hlen (k + 1) w u (by omega) hk1 heq2
          refine ⟨w₂, u₂, ?_⟩
          rw [List.drop_eq_getElem_cons hk]
          simp only [List.cons_append]
          rw [hch, ht]
        · have hdropnil : q.drop (k + 1) = [] := List.drop_eq_nil_of_le (by omega)
          rw [hdropnil] at heq2
          simp only [List.nil_append] at heq2
          have hmem : (',' : Char) ∈ replaceAll p r t := by
            rw [← heq2]
            exact List.mem_append.mpr (Or.inr (List.mem_cons_self _ _))
          obtain ⟨w₂, u₂, ht⟩ := List.append_of_mem (replaceAll_mem_back hc t hmem)
          refine ⟨w₂, u₂, ?_⟩
          rw [List.drop_eq_getElem_cons hk, hdropnil]
          simp only [List.cons_append, List.nil_append]
          rw [hch, ht]

/-- `replaceAll` cannot create a comma-after-`q` shape when `q` cannot
interact with the replacement text and the replacement text is comma-free. -/
theorem ra_commaAfter_back {q p r : List Char} (hp : p ≠ []) (hq1 : 1 < q.length)
    (b1 : ¬ q <:+: r)
    (b2 : ∀ k < q.length, 0 < k → ¬ ((q.take k) <:+ r))
    (b3 : ∀ k < q.length, 0 < k → ¬ ((q.drop k) <+: r))
    (b4 : ∀ k < q.length, 0 < k → ¬ (r <+: (q.drop k)))
    (hc : (',' : Char) ∉ r) :
    ∀ x, commaAfter q (replaceAll p r x) → commaAfter q x := by
  have key : ∀ (n : Nat) (x : List Char), x.length ≤ n →
      commaAfter q (replaceAll p r x) → commaAfter q x := by
    intro n
    induction n with
    | zero =>
      intro x hx h
      have hnil : x = [] := List.length_eq_zero.mp (by omega)
      subst hnil
      obtain ⟨s, w, u, heq⟩ := h
      rw [show replaceAll p r [] = [] from by simp [replaceAll]] at heq
      have h2 := heq.symm
      simp only [List.append_eq_nil] at h2
      rw [h2.2.1] at hq1
      simp at hq1
    | succ n ih =>
      intro x hx h
      cases x with
      | nil =>
        obtain ⟨s, w, u, heq⟩ := h
        rw [show replaceAll p r [] = [] from by simp [replaceAll]] at heq
        have h2 := heq.symm
        simp only [List.append_eq_nil] at h2
        rw [h2.2.1] at hq1
        simp at hq1
      | cons ch t =>
        by_cases hpre : p <+: ch :: t
        · rw [replaceAll, if_pos hpre] at h
          obtain ⟨s, w, u, heq⟩ := h
          rw [← List.append_assoc] at heq
          have heq2 : s ++ q ++ (w ++ ',' :: u)
              = r ++ replaceAll p r (t.drop (p.length - 1)) := heq.symm
          rcases append3_eq_append2 heq2 with ⟨B1, hB1, _⟩ | ⟨A2, hA2, _⟩ |
            ⟨k, hk0, hkl, hL1, _⟩
          · exact absurd ⟨s, B1, hB1.symm⟩ b1
          · have hca : commaAfter q (replaceAll p r (t.drop (p.length - 1))) :=
              ⟨A2, w, u, by rw [hA2]; simp [List.append_assoc]⟩
            have hlen : (t.drop (p.length - 1)).length ≤ n := by
              have := List.length_drop (p.length - 1) t
              simp only [List.length_cons] at hx
              omega
            obtain ⟨s', w', u', ht⟩ := ih _ hlen hca
            refine ⟨p ++ s', w', u', ?_⟩
            have hx2 : ch :: t = p ++ t.drop (p.length - 1) := by
              have h5 := prefix_split hpre
              rwa [cons_drop_eq hp] at h5
            rw [hx2, ht]
            simp [List.append_assoc]
          · exact absurd ⟨s, hL1.symm⟩ (b2 k hkl hk0)
        · rw [replaceAll, if_neg hpre] at h
          obtain ⟨s, w, u, heq⟩ := h
          cases s with
          | nil =>
            simp only [List.nil_append] at heq
            cases hqe : q with
            | nil =>
              rw [hqe] at hq1
              simp at hq1
            | cons cq tq =>
              rw [hqe] at heq
              simp only [List.cons_append, List.cons.injEq] at heq
              obtain ⟨hchq, heq2⟩ := heq
              have heq3 : q.drop 1 ++ (w ++ ',' :: u) = replaceAll p r t := by
                rw [hqe]
                simpa using heq2.symm
              have hlen : t.length ≤ n := by
                simp only [List.length_cons] at hx
                omega
              obtain ⟨w₂, u₂, ht⟩ :=
                ra_comp_back hp b3 b4 hc n t hlen 1 w u (by omega) hq1 heq3
              refine ⟨[], w₂, u₂, ?_⟩
              simp only [List.nil_append]
              rw [hqe] at ht
              simp only [List.drop_succ_cons, List.drop_zero] at ht
              simp only [List.cons_append]
              rw [← hchq, ht]
          | cons cs ss =>
            simp only [List.cons_append, List.cons.injEq] at heq
            obtain ⟨hch, heq2⟩ := heq
            have hlen : t.length ≤ n := by
              simp only [List.length_cons] at hx
              omega
            obtain ⟨s', w', u', ht⟩ := ih t hlen ⟨ss, w, u, heq2⟩
            exact ⟨ch :: s', w', u', by rw [ht]; simp⟩
  exact fun x => key x.length x (le_refl _)

/-- A singleton pattern is an infix exactly when its character occurs. -/
theorem singleton_infix_iff {c : Char} {y : List Char} : [c] <:+: y ↔ c ∈ y := by
  constructor
  · intro h
    obtain ⟨s, t, hst⟩ := h
    rw [← hst]
    simp
  · intro h
    obtain ⟨s, t, hst⟩ := List.append_of_mem h
    exact ⟨s, t, by rw [hst]; simp⟩

/-- The step-1 replacement splits into pattern and inserted tail. -/
theorem s1rep_eq : s1rep = s1pat ++ "\n    ignorePatterns?: string[];".toList := by
  decide

/-- The step-2 replacement splits into pattern and inserted tail. -/
theorem s2rep_eq : s2rep = s2pat ++ "\n    ignorePatterns: string[];".toList := by
  decide

/-- The three ways `step1` can run. -/
theorem step1_cases (x : List Char) :
    (s1guard <:+: x ∧ step1 x = x)
    ∨ (¬ s1guard <:+: x ∧ ¬ s1pat <:+: x ∧ step1 x = x)
    ∨ (¬ s1guard <:+: x ∧ ∃ A B, x = A ++ s1pat ++ B
        ∧ step1 x = A ++ s1rep ++ B) := by
  by_cases hg : s1guard <:+: x
  · exact Or.inl ⟨hg, by unfold step1; rw [if_pos hg]⟩
  · by_cases hpat : s1pat <:+: x
    · obtain ⟨A, B, hx, hr⟩ := replaceFirst_decomp (r := s1rep) (by decide) hpat
      exact Or.inr (Or.inr ⟨hg, A, B, hx, by unfold step1; rw [if_neg hg]; exact hr⟩)
    · exact Or.inr (Or.inl ⟨hg, hpat, by
        unfold step1
        rw [if_neg hg, replaceFirst_no_match hpat]⟩)

/-- The three ways `step2` can run. -/
theorem step2_cases (x : List Char) :
    (s2guard <:+: x ∧ step2 x = x)
    ∨ (¬ s2guard <:+: x ∧ ¬ s2pat <:+: x ∧ step2 x = x)
    ∨ (¬ s2guard <:+: x ∧ ∃ A B, x = A ++ s2pat ++ B
        ∧ step2 x = A ++ s2rep ++ B) := by
  by_cases hg : s2guard <:+: x
  · exact Or.inl ⟨hg, by unfold step2; rw [if_pos hg]⟩
  · by_cases hpat : s2pat <:+: x
    · obtain ⟨A, B, hx, hr⟩ := replaceFirst_decomp (r := s2rep) (by decide) hpat
      exact Or.inr (Or.inr ⟨hg, A, B, hx, by unfold step2; rw [if_neg hg]; exact hr⟩)
    · exact Or.inr (Or.inl ⟨hg, hpat, by
        unfold step2
        rw [if_neg hg, replaceFirst_no_match hpat]⟩)

/-- The three ways `step3` can run: guard, no comma-after-snippet, fired. -/
theorem step3_cases (x : List Char) :
    (s3guard <:+: x ∧ step3 x = x)
    ∨ (¬ commaAfter s3pat x ∧ step3 x = x)
    ∨ (∃ A C D, x = (A ++ s3pat ++ C) ++ [','] ++ D
        ∧ step3 x = (A ++ s3pat ++ C) ++ [','] ++ s3ins ++ D) := by
  by_cases hg : s3guard <:+: x
  · exact Or.inl ⟨hg, by unfold step3; rw [if_pos hg]⟩
  · cases hfs : firstSplit s3pat x with
    | none =>
      refine Or.inr (Or.inl ⟨?_, ?_⟩)
      · rintro ⟨s, w, u, hx⟩
        exact firstSplit_none (by decide) hfs
          ⟨s, w ++ ',' :: u, by rw [hx]; simp [List.append_assoc]⟩
      · unfold step3
        rw [if_neg hg, hfs]
    | some pr =>
      obtain ⟨a, b⟩ := pr
      have hx := firstSplit_some hfs
      cases hcs : firstSplit [','] b with
      | none =>
        have hbc : (',' : Char) ∉ b := by
          intro hmem
          exact firstSplit_none (by decide) hcs (singleton_infix_iff.mpr hmem)
        refine Or.inr (Or.inl ⟨?_, ?_⟩)
        · rintro ⟨s, w, u, hxs⟩
          have hxs2 : x = s ++ s3pat ++ (w ++ ',' :: u) := by
            rw [hxs]
            simp [List.append_assoc]
          have hmin : a.length ≤ s.length := firstSplit_min hfs hxs2
          have hdropa : x.drop s.length = s3pat ++ (w ++ ',' :: u) := by
            rw [hxs, List.drop_left]
          have hdropb : x.drop s.length
              = (s3pat ++ b).drop (s.length - a.length) := by
            rw [hx]
            rw [List.append_assoc, List.drop_append_eq_append_drop,
              List.drop_eq_nil_of_le hmin]
            simp
          have hmem : (',' : Char) ∈ (s3pat ++ b).drop (s.length - a.length) := by
            rw [← hdropb, hdropa]
            simp
          have hmem2 : (',' : Char) ∈ s3pat ++ b := List.mem_of_mem_drop hmem
          rcases List.mem_append.mp hmem2 with hmem3 | hmem3
          · exact absurd hmem3 (by decide)
          · exact hbc hmem3
        · unfold step3
          rw [if_neg hg]
          simp only [hfs, hcs]
      | some pr2 =>
        obtain ⟨c, d⟩ := pr2
        have hb := firstSplit_some hcs
        refine Or.inr (Or.inr ⟨a, c, d, ?_, ?_⟩)
        · rw [hx, hb]
          simp [List.append_assoc]
        · unfold step3
          rw [if_neg hg]
          simp [hfs, hcs, List.append_assoc]

/-- The two ways `step4` can run. -/
theorem step4_cases (x : List Char) :
    (s4guard <:+: x ∧ step4 x = x)
    ∨ (¬ s4guard <:+: x ∧ step4 x = replaceAll s4pat s4rep x) := by
  by_cases hg : s4guard <:+: x
  · exact Or.inl ⟨hg, by unfold step4; rw [if_pos hg]⟩
  · exact Or.inr ⟨hg, by unfold step4; rw [if_neg hg]⟩

/-- `step2` preserves an occurrence of `g` that cannot straddle the end of
the step-2 pattern. -/
theorem step2_keeps_occurrence {g x : List Char}
    (d1 : ∀ k < g.length, 0 < k → ¬ ((g.take k) <:+ s2pat))
    (d2 : ∀ k < g.length, 0 < k → ¬ (s2pat <:+ (g.take k)))
    (h : g <:+: x) : g <:+: step2 x := by
  rcases step2_cases x with ⟨_, he⟩ | ⟨_, _, he⟩ | ⟨_, A, B, hx, he⟩
  · rwa [he]
  · rwa [he]
  · rw [he, s2rep_eq]
    rw [hx] at h
    have h2 : g <:+: A ++ s2pat ++ "\n    ignorePatterns: string[];".toList ++ B :=
      insert_preserve h d1 d2
    simpa [List.append_assoc] using h2

/-- `step3` preserves an occurrence of `g` that cannot straddle a comma. -/
theorem step3_keeps_occurrence {g x : List Char}
    (d1 : ∀ k < g.length, 0 < k → ¬ ((g.take k) <:+ ([','] : List Char)))
    (d2 : ∀ k < g.length, 0 < k → ¬ (([','] : List Char) <:+ (g.take k)))
    (h : g <:+: x) : g <:+: step3 x := by
  rcases step3_cases x with ⟨_, he⟩ | ⟨_, he⟩ | ⟨A, C, D, hx, he⟩
  · rwa [he]
  · rwa [he]
  · rw [he]
    rw [hx] at h
    exact insert_preserve h d1 d2

/-- `step4` preserves an occurrence of `g` that cannot straddle the step-4
pattern junction. -/
theorem step4_keeps_occurrence {g x : List Char}
    (e1 : ∀ k < g.length, 0 < k → ¬ ((g.take k) <:+ s4pat))
    (g2a : ∀ k < g.length, ¬ (s4pat <+: (g.drop k)))
    (g2b : ∀ k < g.length, 0 < k → ¬ ((g.drop k) <+: s4pat))
    (h : g <:+: x) : g <:+: step4 x := by
  rcases step4_cases x with ⟨_, he⟩ | ⟨_, he⟩
  · rwa [he]
  · rw [he]
    exact ra_preserve (by decide) (by decide) e1 g2a g2b x h

/-- `step2` cannot create an occurrence of `g` incompatible with the step-2
inserted text. -/
theorem step2_creates_no_occurrence {g x : List Char}
    (c1 : ¬ g <:+: "\n    ignorePatterns: string[];".toList)
    (c2 : ∀ k < g.length, 0 < k →
      ¬ ((g.drop k) <+: "\n    ignorePatterns: string[];".toList))
    (c3 : ∀ k < g.length, 0 < k →
      k + ("\n    ignorePatterns: string[];".toList).length < g.length →
      ¬ ("\n    ignorePatterns: string[];".toList <+: g.drop k))
    (c4 : ∀ k < g.length, 0 < k →
      ¬ ((g.take k) <:+ "\n    ignorePatterns: string[];".toList))
    (h : ¬ g <:+: x) : ¬ g <:+: step2 x := by
  rcases step2_cases x with ⟨_, he⟩ | ⟨_, _, he⟩ | ⟨_, A, B, hx, he⟩
  · rwa [he]
  · rwa [he]
  · rw [he, s2rep_eq]
    rw [hx] at h
    have h2 := insert_no_create h c1 c2 c3 c4
    intro hgg
    exact h2 (by simpa [List.append_assoc] using hgg)

/-- `step3` cannot create an occurrence of `g` incompatible with the step-3
inserted text. -/
theorem step3_creates_no_occurrence {g x : List Char}
    (c1 : ¬ g <:+: s3ins)
    (c2 : ∀ k < g.length, 0 < k → ¬ ((g.drop k) <+: s3ins))
    (c3 : ∀ k < g.length, 0 < k → k + s3ins.length < g.length →
      ¬ (s3ins <+: g.drop k))
    (c4 : ∀ k < g.length, 0 < k → ¬ ((g.take k) <:+ s3ins))
    (h : ¬ g <:+: x) : ¬ g <:+: step3 x := by
  rcases step3_cases x with ⟨_, he⟩ | ⟨_, he⟩ | ⟨A, C, D, hx, he⟩
  · rwa [he]
  · rwa [he]
  · rw [he]
    rw [hx] at h
    exact insert_no_create h c1 c2 c3 c4

/-- `step4` cannot create an occurrence of `g` incompatible with the step-4
replacement text. -/
theorem step4_creates_no_occurrence {g x : List Char} (hgne : g ≠ [])
    (f1 : ¬ g <:+: s4rep)
    (f2 : ∀ k < g.length, 0 < k → ¬ ((g.take k) <:+ s4rep))
    (f3 : ∀ k < g.length, ¬ ((g.drop k) <+: s4rep))
    (f4 : ∀ k < g.length, ¬ (s4rep <+: (g.drop k)))
    (h : ¬ g <:+: x) : ¬ g <:+: step4 x := by
  rcases step4_cases x with ⟨_, he⟩ | ⟨_, he⟩
  · rwa [he]
  · rw [he]
    intro hgg
    exact h (ra_no_create hgne (by decide) f1 f2 f3 f4 x hgg)

/-- `step3` does nothing when the snippet never has a comma after it. -/
theorem step3_id_of_not_commaAfter {x : List Char}
    (h : ¬ commaAfter s3pat x) : step3 x = x := by
  rcases step3_cases x with ⟨_, he⟩ | ⟨_, he⟩ | ⟨A, C, D, hx, he⟩
  · exact he
  · exact he
  · exact absurd ⟨A, C, D, by rw [hx]; simp [List.append_assoc]⟩ h

/-- `step4` cannot create a comma-after-snippet shape. -/
theorem step4_keeps_not_commaAfter {x : List Char}
    (h : ¬ commaAfter s3pat x) : ¬ commaAfter s3pat (step4 x) := by
  rcases step4_cases x with ⟨_, he⟩ | ⟨_, he⟩
  · rwa [he]
  · rw [he]
    intro hca
    exact h (ra_commaAfter_back (by decide) (by decide) (by decide) (by decide)
      (by decide) (by decide) (by decide) x hca)

/-- `step1` is a no-op when its guard substring is present. -/
theorem step1_id_of_guard {y : List Char} (h : s1guard <:+: y) : step1 y = y := by
  unfold step1
  rw [if_pos h]

/-- `step1` is a no-op when its pattern is absent. -/
theorem step1_id_of_no_pat {y : List Char} (h : ¬ s1pat <:+: y) : step1 y = y := by
  unfold step1
  split
  · rfl
  · exact replaceFirst_no_match h

/-- `step2` is a no-op when its guard substring is present. -/
theorem step2_id_of_guard {y : List Char} (h : s2guard <:+: y) : step2 y = y := by
  unfold step2
  rw [if_pos h]

/-- `step2` is a no-op when its pattern is absent. -/
theorem step2_id_of_no_pat {y : List Char} (h : ¬ s2pat <:+: y) : step2 y = y := by
  unfold step2
  split
  · rfl
  · exact replaceFirst_no_match h

/-- `step3` is a no-op when its guard substring is present. -/
theorem step3_id_of_guard {y : List Char} (h : s3guard <:+: y) : step3 y = y := by
  unfold step3
  rw [if_pos h]

/-- `step4` is a no-op when its guard substring is present. -/
theorem step4_id_of_guard {y : List Char} (h : s4guard <:+: y) : step4 y = y := by
  unfold step4
  rw [if_pos h]

/-- After `step1`, the step-1 guard is present or the step-1 pattern absent. -/
theorem step1_post (x : List Char) :
    s1guard <:+: step1 x ∨ ¬ s1pat <:+: step1 x := by
  rcases step1_cases x with ⟨hg, he⟩ | ⟨_, hp, he⟩ | ⟨_, A, B, _, he⟩
  · exact Or.inl (by rwa [he])
  · exact Or.inr (by rwa [he])
  · refine Or.inl ?_
    rw [he]
    exact (show s1guard <:+: s1rep by decide).trans (List.infix_append A s1rep B)

/-- After `step2`, the step-2 guard is present or the step-2 pattern absent. -/
theorem step2_post (x : List Char) :
    s2guard <:+: step2 x ∨ ¬ s2pat <:+: step2 x := by
  rcases step2_cases x with ⟨hg, he⟩ | ⟨_, hp, he⟩ | ⟨_, A, B, _, he⟩
  · exact Or.inl (by rwa [he])
  · exact Or.inr (by rwa [he])
  · refine Or.inl ?_
    rw [he]
    exact (show s2guard <:+: s2rep by decide).trans (List.infix_append A s2rep B)

/-- A second run of step 1 changes nothing. -/
theorem second_step1_id (x : List Char) :
    step1 (updateConfigTransform x) = updateConfigTransform x := by
  rcases step1_post x with h1 | h1
  · exact step1_id_of_guard
      (step4_keeps_occurrence (by decide) (by decide) (by decide)
        (step3_keeps_occurrence (by decide) (by decide)
          (step2_keeps_occurrence (by decide) (by decide) h1)))
  · exact step1_id_of_no_pat
      (step4_creates_no_occurrence (by decide) (by decide) (by decide) (by decide)
        (by decide)
        (step3_creates_no_occurrence (by decide) (by decide) (by decide) (by decide)
          (step2_creates_no_occurrence (by decide) (by decide) (by decide) (by decide)
            h1)))

/-- A second run of step 2 changes nothing. -/
theorem second_step2_id (x : List Char) :
    step2 (updateConfigTransform x) = updateConfigTransform x := by
  rcases step2_post (step1 x) with h1 | h1
  · exact step2_id_of_guard
      (step4_keeps_occurrence (by decide) (by decide) (by decide)
        (step3_keeps_occurrence (by decide) (by decide) h1))
  · exact step2_id_of_no_pat
      (step4_creates_no_occurrence (by decide) (by decide) (by decide) (by decide)
        (by decide)
        (step3_creates_no_occurrence (by decide) (by decide) (by decide) (by decide)
          h1))

/-- A second run of step 3 changes nothing. -/
theorem second_step3_id (x : List Char) :
    step3 (updateConfigTransform x) = updateConfigTransform x := by
  rcases step3_cases (step2 (step1 x)) with ⟨hg, he⟩ | ⟨hnc, he⟩ |
    ⟨A, C, D, hx, he⟩
  · have h1 : s3guard <:+: step3 (step2 (step1 x)) := by rwa [he]
    exact step3_id_of_guard
      (step4_keeps_occurrence (by decide) (by decide) (by decide) h1)
  · have h1 : ¬ commaAfter s3pat (step3 (step2 (step1 x))) := by rwa [he]
    exact step3_id_of_not_commaAfter (step4_keeps_not_commaAfter h1)
  · have h1 : s3guard <:+: step3 (step2 (step1 x)) := by
      rw [he]
      exact (show s3guard <:+: s3ins by decide).trans
        (List.infix_append ((A ++ s3pat ++ C) ++ [',']) s3ins D)
    exact step3_id_of_guard
      (step4_keeps_occurrence (by decide) (by decide) (by decide) h1)

/-- A second run of step 4 changes nothing. -/
theorem second_step4_id (x : List Char) :
    step4 (updateConfigTransform x) = updateConfigTransform x := by
  show step4 (step4 (step3 (step2 (step1 x)))) = step4 (step3 (step2 (step1 x)))
  rcases step4_cases (step3 (step2 (step1 x))) with ⟨hg, he⟩ | ⟨hg, he⟩
  · rw [he]
    exact he
  · by_cases hp : s4pat <:+: step3 (step2 (step1 x))
    · obtain ⟨A, B, hAB⟩ : ∃ A B, replaceAll s4pat s4rep (step3 (step2 (step1 x)))
          = A ++ s4rep ++ B := replaceAll_decomp (by decide) hp
      have hg4 : s4guard <:+: step4 (step3 (step2 (step1 x))) := by
        rw [he, hAB]
        exact (show s4guard <:+: s4rep by decide).trans
          (List.infix_append A s4rep B)
      exact step4_id_of_guard hg4
    · have h2 : step4 (step3 (step2 (step1 x))) = step3 (step2 (step1 x)) := by
        rw [he, replaceAll_no_match hp]
      rw [h2]
      exact h2

end UpdateConfig

/-- C10: the update_config.py patch script is idempotent on file content -
applying its four guarded insertions twice produces the same text as
applying them once, for every input text.  The script's first lines-loop is
dead code (its `new_lines` is never written back), so the file
transformation is exactly `updateConfigTransform`. -/
theorem updateConfig_idempotent (x : List Char) :
    UpdateConfig.updateConfigTransform (UpdateConfig.updateConfigTransform x)
      = UpdateConfig.updateConfigTransform x := by
  have h1 := UpdateConfig.second_step1_id x
  have h2 := UpdateConfig.second_step2_id x
  have h3 := UpdateConfig.second_step3_id x
  have h4 := UpdateConfig.second_step4_id x
  show UpdateConfig.step4 (UpdateConfig.step3 (UpdateConfig.step2
    (UpdateConfig.step1 (UpdateConfig.updateConfigTransform x))))
      = UpdateConfig.updateConfigTransform x
  rw [h1, h2, h3, h4]

end GeminiCli

